import Mathlib

/-!
# xbook2: wait queues (`src/task/waitqueue.c`) and the virtual floppy (`vfloppy.c`)

A shallow embedding of the four wait-queue operations over an explicit memory of
`list_t` link nodes.  The wait list is the intrusive, circular, doubly linked list
the C code manipulates: the queue owns a head node, every task owns one link node.

The list helpers (xbook/list.h), the lock, `ASSERT` and `task_wakeup` are not under
src/; each of them is a separate definition below whose doc comment says so.

Every acquire and release of a lock and every call of a list helper made by the four
operations is recorded, in program order, in `Kernel.log`, so where the accesses to
the wait list and to the task links stand relative to the lock is part of what an
operation is defined to do.

The read and write handlers of the virtual floppy driver are embedded over a byte
memory addressed relative to the disk buffer, with `unsigned long` arithmetic modulo
2^32.
-/

namespace Xbook

/-! ## Memory of link nodes -/

/-- Address of a `list_t` object: `&wait_queue->wait_list` of wait queue `q`, or
`&task->list` of task `t`.  Distinct objects have distinct addresses. -/
inductive Ptr where
  | wait_list (q : Nat)
  | task_list (t : Nat)
deriving DecidableEq, Repr

/-- The C `list_t`: a link node with a predecessor and a successor pointer. -/
structure list_t where
  prev : Ptr
  next : Ptr
deriving DecidableEq, Repr

/-- Contents of every link node. -/
abbrev Mem := Ptr → list_t

/-- The store `p->prev = v`. -/
def set_prev (p v : Ptr) (m : Mem) : Mem :=
  fun x => if x = p then { m x with prev := v } else m x

/-- The store `p->next = v`. -/
def set_next (p v : Ptr) (m : Mem) : Mem :=
  fun x => if x = p then { m x with next := v } else m x

/-- Scheduling state of a task (spec section 3: RUNNING, READY, BLOCKED). -/
inductive task_state where
  | TASK_READY
  | TASK_RUNNING
  | TASK_BLOCKED
deriving DecidableEq, Repr

/-- Observable events of an execution, oldest first in `Kernel.trace`. -/
inductive Event where
  | acquire (q : Nat)
  | release (q : Nat)
  | wake (task : Ptr)
deriving DecidableEq, Repr

/-! ## `xbook/list.h` -/

/-- Modelled from the spec: xbook/list.h is not under src/.  The unlinked state of a
node (an empty list head, a cleared linkage slot): it refers to nothing but itself. -/
def INIT_LIST_HEAD (list : Ptr) (m : Mem) : Mem :=
  set_prev list list (set_next list list m)

/-- Modelled from the spec: xbook/list.h is not under src/.  Links `list` between the
adjacent nodes `prev` and `next` of an intrusive doubly linked list (spec section 9). -/
def __list_add (list prev next : Ptr) (m : Mem) : Mem :=
  set_next prev list (set_prev list prev (set_next list next (set_prev next list m)))

/-- Modelled from the spec: `list_add_tail` of xbook/list.h is not under src/.
Appends `list` at the tail, that is right before the head of the circular list
(spec 4.1, enqueue: "appends task to the tail of members"). -/
def list_add_tail (list head : Ptr) (m : Mem) : Mem :=
  __list_add list (m head).prev head m

/-- Modelled from the spec: xbook/list.h is not under src/.  Makes `prev` and `next`
neighbours of each other, which unlinks whatever was between them. -/
def __list_del (prev next : Ptr) (m : Mem) : Mem :=
  set_next prev next (set_prev next prev m)

/-- Modelled from the spec: `list_del` of xbook/list.h is not under src/.  Unlinks
`node` from its neighbours and clears the node's own linkage slot (spec I4:
"removal (explicit or via wake) always also clears the task's linkage slot"). -/
def list_del (node : Ptr) (m : Mem) : Mem :=
  INIT_LIST_HEAD node (__list_del (m node).prev (m node).next m)

/-- Modelled from the spec: `list_del_init` of xbook/list.h is not under src/.
Unlinks `node` from its neighbours and re-initialises it as an unlinked node
(spec I4). -/
def list_del_init (node : Ptr) (m : Mem) : Mem :=
  INIT_LIST_HEAD node (__list_del (m node).prev (m node).next m)

/-- Modelled from the spec: `list_empty` of xbook/list.h is not under src/.  A list
is empty when its head is its own successor. -/
def list_empty (head : Ptr) (m : Mem) : Bool :=
  decide ((m head).next = head)

/-- Modelled from the spec: `list_first_owner` of xbook/list.h is not under src/.
The owner of the first node after the head: the oldest waiter (spec 4.1, wake_one). -/
def list_first_owner (head : Ptr) (m : Mem) : Ptr :=
  (m head).next

/-- Modelled from the spec: the step of `list_for_each_owner_safe` to the owner of the
successor of `pos` (xbook/list.h is not under src/). -/
def list_next_owner (pos : Ptr) (m : Mem) : Ptr :=
  (m pos).next

/-- Loop of `list_find`: `for (node = head->next; node != head; node = node->next)`
returning 1 at the first `node == list`, 0 when the walk is back at the head. -/
def list_find_loop (m : Mem) (list head : Ptr) : Nat → Ptr → Option Bool
  | 0, _ => none
  | fuel + 1, node =>
    if node = head then some false
    else if node = list then some true
    else list_find_loop m list head fuel (m node).next

/-- Modelled from the spec: `list_find` of xbook/list.h is not under src/.  Walks the
list from the head and tells whether `list` is one of its nodes (spec 4.1: "task is
not currently linked into queue (checked)").  `none`: the walk did not end within
`fuel` steps. -/
def list_find (fuel : Nat) (list head : Ptr) (m : Mem) : Option Bool :=
  list_find_loop m list head fuel (m head).next

/-! ## Kernel state -/

/-- The calls of list helpers, with their arguments, through which waitqueue.c reads
and writes the wait list and the task links; it touches list nodes in no other way. -/
inductive list_call where
  | list_find (list head : Ptr)
  | list_add_tail (list head : Ptr)
  | list_del (node : Ptr)
  | list_del_init (node : Ptr)
  | list_empty (head : Ptr)
  | list_first_owner (head : Ptr)
  | list_next_owner (pos : Ptr)
deriving DecidableEq, Repr

/-- An entry of `Kernel.log`: an acquire or a release of the lock of a queue, or a call
of a list helper, which reads or writes list nodes. -/
inductive Step where
  | acquire (q : Nat)
  | release (q : Nat)
  | access (call : list_call)
deriving DecidableEq, Repr

/-- The part of the kernel state the wait-queue code reads or writes.  A `task_t *`
is represented by the address of its `list` member (`list_owner` is a constant-offset
cast), so per-task data is indexed by `Ptr`.  `trace` holds the lock and scheduler
events, `log` the lock events and every call of a list helper, both oldest first. -/
structure Kernel where
  mem : Mem
  state : Ptr → task_state
  locked : Nat → Bool
  irq : Bool
  trace : List Event
  log : List Step

/-- Records a call of a list helper in the log. -/
def log_access (call : list_call) (s : Kernel) : Kernel :=
  { s with log := s.log ++ [Step.access call] }

/-- The call `list_find(list, head)`: its result on the link memory, and the state with
the call recorded. -/
def call_list_find (fuel : Nat) (list head : Ptr) (s : Kernel) : Option (Bool × Kernel) :=
  match list_find fuel list head s.mem with
  | none => none
  | some found => some (found, log_access (list_call.list_find list head) s)

/-- The call `list_add_tail(list, head)`, recorded. -/
def call_list_add_tail (list head : Ptr) (s : Kernel) : Kernel :=
  log_access (list_call.list_add_tail list head) { s with mem := list_add_tail list head s.mem }

/-- The call `list_del(node)`, recorded. -/
def call_list_del (node : Ptr) (s : Kernel) : Kernel :=
  log_access (list_call.list_del node) { s with mem := list_del node s.mem }

/-- The call `list_del_init(node)`, recorded. -/
def call_list_del_init (node : Ptr) (s : Kernel) : Kernel :=
  log_access (list_call.list_del_init node) { s with mem := list_del_init node s.mem }

/-- The call `list_empty(head)`: its result and the state with the call recorded. -/
def call_list_empty (head : Ptr) (s : Kernel) : Bool × Kernel :=
  (list_empty head s.mem, log_access (list_call.list_empty head) s)

/-- The call `list_first_owner(head, ..)`: its result and the state with the call
recorded. -/
def call_list_first_owner (head : Ptr) (s : Kernel) : Ptr × Kernel :=
  (list_first_owner head s.mem, log_access (list_call.list_first_owner head) s)

/-- The fetch of the successor of `pos` in `list_for_each_owner_safe`: its result and
the state with the fetch recorded. -/
def call_list_next_owner (pos : Ptr) (s : Kernel) : Ptr × Kernel :=
  (list_next_owner pos s.mem, log_access (list_call.list_next_owner pos) s)

/-- How a call ends. -/
inductive Outcome where
  | returned (s : Kernel)
  | fault (s : Kernel)
  | spin
  | out_of_fuel

/-- Passes of `list_for_each_owner_safe`: the loop ends when `pos` is back at the head
or the body has executed `break`; otherwise it goes on with the successor that was
fetched before the body ran. -/
def list_for_each_owner_safe_loop (head : Ptr) (body : Ptr → Kernel → Kernel × Bool) :
    Nat → Ptr → Ptr → Kernel → Option Kernel
  | 0, _, _, _ => none
  | fuel + 1, pos, next, s =>
    if pos = head then some s
    else
      match body pos s with
      | (s1, true) => some s1
      | (s1, false) =>
        list_for_each_owner_safe_loop head body fuel next (call_list_next_owner next s1).1
          (call_list_next_owner next s1).2

/-- Modelled from the spec: the macro `list_for_each_owner_safe (pos, next, head, member)`
of xbook/list.h is not under src/.  The traversal of the owners of a list, oldest first,
that tolerates the body unlinking `pos` (spec 4.1: remove "scans members", wake_all
"removes every member").  `body` returns the state after one pass and whether it
executed `break`.  `none`: the traversal did not end within `fuel` passes. -/
def list_for_each_owner_safe (fuel : Nat) (head : Ptr) (body : Ptr → Kernel → Kernel × Bool)
    (s : Kernel) : Option Kernel :=
  let pos := call_list_first_owner head s
  let next := call_list_next_owner pos.1 pos.2
  list_for_each_owner_safe_loop head body fuel pos.1 next.1 next.2

/-! ## Lock, assertion, scheduler -/

/-- The state in which `spin_lock_irqsave` returns: the lock is held, interrupts are
disabled. -/
def lock_acquired (q : Nat) (s : Kernel) : Kernel :=
  { s with locked := fun x => if x = q then true else s.locked x,
           irq := false,
           trace := s.trace ++ [Event.acquire q],
           log := s.log ++ [Step.acquire q] }

/-- Modelled from the spec: `spin_lock_irqsave` is not under src/.  Acquires the
queue's lock, saving the interrupt-enable state in `flags` and disabling interrupts
(spec section 6).  On a lock that is already held a sequential caller spins for
ever: `none`. -/
def spin_lock_irqsave (q : Nat) (s : Kernel) : Option (Bool × Kernel) :=
  if s.locked q then none else some (s.irq, lock_acquired q s)

/-- Modelled from the spec: `spin_unlock_irqrestore` is not under src/.  Releases the
queue's lock and restores the interrupt-enable state saved in `flags`. -/
def spin_unlock_irqrestore (q : Nat) (flags : Bool) (s : Kernel) : Kernel :=
  { s with locked := fun x => if x = q then false else s.locked x,
           irq := flags,
           trace := s.trace ++ [Event.release q],
           log := s.log ++ [Step.release q] }

/-- Modelled from the spec: `ASSERT` of xbook/debug.h is not under src/.  A failed
assertion is a fault that stops the kernel on the spot (spec section 7: "fail loudly
(assertion/fault)"); otherwise execution continues with `k`. -/
def ASSERT (cond : Bool) (s : Kernel) (k : Kernel → Outcome) : Outcome :=
  if cond then k s else Outcome.fault s

/-- Modelled from the spec: `task_wakeup` (the scheduler) is not under src/.  The
external "make runnable" entry point: it is invoked with the task, transitions
BLOCKED to READY, and what it does to its own run-queue structures is not visible
to the wait queue (spec section 6). -/
def task_wakeup (task : Ptr) (s : Kernel) : Kernel :=
  { s with state := fun x =>
             if x = task then
               (if s.state x = task_state.TASK_BLOCKED then task_state.TASK_READY
                else s.state x)
             else s.state x,
           trace := s.trace ++ [Event.wake task] }

/-! ## `src/task/waitqueue.c` -/

/-- The function `wait_queue_add` (waitqueue.c lines 4-12). -/
def wait_queue_add (fuel : Nat) (wait_queue task : Nat) (s : Kernel) : Outcome :=
  match spin_lock_irqsave wait_queue s with
  | none => Outcome.spin
  | some (flags, s1) =>
    match call_list_find fuel (Ptr.task_list task) (Ptr.wait_list wait_queue) s1 with
    | none => Outcome.out_of_fuel
    | some (found, s2) =>
      ASSERT (!found) s2 fun s3 =>
        let s4 := call_list_add_tail (Ptr.task_list task) (Ptr.wait_list wait_queue) s3
        Outcome.returned (spin_unlock_irqrestore wait_queue flags s4)

/-- Body of the loop of `wait_queue_remove` (lines 20-23):
`if (target == task) { list_del_init(&target->list); break; }`.  The flag tells whether
`break` was executed. -/
def wait_queue_remove_body (task target : Ptr) (s : Kernel) : Kernel × Bool :=
  if target = task then (call_list_del_init target s, true)
  else (s, false)

/-- The function `wait_queue_remove` (waitqueue.c lines 13-26). -/
def wait_queue_remove (fuel : Nat) (wait_queue task : Nat) (s : Kernel) : Outcome :=
  match spin_lock_irqsave wait_queue s with
  | none => Outcome.spin
  | some (flags, s1) =>
    match list_for_each_owner_safe fuel (Ptr.wait_list wait_queue)
        (wait_queue_remove_body (Ptr.task_list task)) s1 with
    | none => Outcome.out_of_fuel
    | some s2 => Outcome.returned (spin_unlock_irqrestore wait_queue flags s2)

/-- The function `wait_queue_wakeup` (waitqueue.c lines 28-38). -/
def wait_queue_wakeup (wait_queue : Nat) (s : Kernel) : Outcome :=
  match spin_lock_irqsave wait_queue s with
  | none => Outcome.spin
  | some (flags, s1) =>
    let head := Ptr.wait_list wait_queue
    let empty := call_list_empty head s1
    if !empty.1 then
      let task := call_list_first_owner head empty.2
      let s2 := call_list_del task.1 task.2
      let s3 := task_wakeup task.1 s2
      Outcome.returned (spin_unlock_irqrestore wait_queue flags s3)
    else
      Outcome.returned (spin_unlock_irqrestore wait_queue flags empty.2)

/-- Body of the loop of `wait_queue_wakeup_all` (lines 46-47):
`list_del(&task->list); task_wakeup(task);`, never leaving the loop early. -/
def wait_queue_wakeup_all_body (task : Ptr) (s : Kernel) : Kernel × Bool :=
  (task_wakeup task (call_list_del task s), false)

/-- The function `wait_queue_wakeup_all` (waitqueue.c lines 40-50). -/
def wait_queue_wakeup_all (fuel : Nat) (wait_queue : Nat) (s : Kernel) : Outcome :=
  match spin_lock_irqsave wait_queue s with
  | none => Outcome.spin
  | some (flags, s1) =>
    match list_for_each_owner_safe fuel (Ptr.wait_list wait_queue)
        wait_queue_wakeup_all_body s1 with
    | none => Outcome.out_of_fuel
    | some s2 => Outcome.returned (spin_unlock_irqrestore wait_queue flags s2)

/-! ## Well-formed wait lists and runs -/

/-- The nodes `a` and `b` are neighbours: `a->next == b` and `b->prev == a`. -/
def link (m : Mem) (a b : Ptr) : Prop :=
  (m a).next = b ∧ (m b).prev = a

/-- The nodes `a, l, b` form a doubly linked chain in this order. -/
def seg (m : Mem) : Ptr → List Ptr → Ptr → Prop
  | a, [], b => link m a b
  | a, x :: xs, b => link m a x ∧ seg m x xs b

/-- The wait list of queue `q` is a well-formed circular list whose members, from
the head onwards, are the link nodes of the tasks `l`, each of them once. -/
def is_queue (m : Mem) (q : Nat) (l : List Nat) : Prop :=
  l.Nodup ∧ seg m (Ptr.wait_list q) (l.map Ptr.task_list) (Ptr.wait_list q)

instance link_decidable (m : Mem) (a b : Ptr) : Decidable (link m a b) :=
  inferInstanceAs (Decidable ((m a).next = b ∧ (m b).prev = a))

instance seg_decidable (m : Mem) : (a : Ptr) → (l : List Ptr) → (b : Ptr) → Decidable (seg m a l b)
  | a, [], b => inferInstanceAs (Decidable (link m a b))
  | a, x :: xs, b =>
    haveI := seg_decidable m x xs b
    inferInstanceAs (Decidable (link m a x ∧ seg m x xs b))

instance is_queue_decidable (m : Mem) (q : Nat) (l : List Nat) : Decidable (is_queue m q l) :=
  inferInstanceAs (Decidable (l.Nodup ∧
    seg m (Ptr.wait_list q) (l.map Ptr.task_list) (Ptr.wait_list q)))

/-- The tasks handed to `task_wakeup`, in the order of the calls. -/
def woken (tr : List Event) : List Ptr :=
  tr.filterMap fun e => match e with
    | Event.wake t => some t
    | _ => none

/-- One call of the wait-queue interface. -/
inductive Op where
  | add (q t : Nat)
  | remove (q t : Nat)
  | wakeup (q : Nat)
  | wakeup_all (q : Nat)
deriving DecidableEq, Repr

/-- Performs one call. -/
def step (fuel : Nat) : Op → Kernel → Outcome
  | Op.add q t, s => wait_queue_add fuel q t s
  | Op.remove q t, s => wait_queue_remove fuel q t s
  | Op.wakeup q, s => wait_queue_wakeup q s
  | Op.wakeup_all q, s => wait_queue_wakeup_all fuel q s

/-- Performs the calls one after the other; a call that does not return ends the
run with its outcome. -/
def run (fuel : Nat) : List Op → Kernel → Outcome
  | [], s => Outcome.returned s
  | op :: ops, s =>
    match step fuel op s with
    | Outcome.returned s1 => run fuel ops s1
    | o => o

/-- A kernel state in which every link node is unlinked, every task is blocked, no
lock is held and interrupts are enabled. -/
def boot : Kernel :=
  { mem := fun p => { prev := p, next := p },
    state := fun _ => task_state.TASK_BLOCKED,
    locked := fun _ => false,
    irq := true,
    trace := [],
    log := [] }

/-- A state in which wait queue 0 holds the tasks 7 and 8, in this order, and every
other link node is unlinked. -/
def two_waiters : Kernel :=
  { boot with
    mem := fun p =>
      match p with
      | Ptr.wait_list 0 => { prev := Ptr.task_list 8, next := Ptr.task_list 7 }
      | Ptr.task_list 7 => { prev := Ptr.wait_list 0, next := Ptr.task_list 8 }
      | Ptr.task_list 8 => { prev := Ptr.task_list 7, next := Ptr.wait_list 0 }
      | p => { prev := p, next := p } }

/-- The wait queue a call operates on. -/
def Op.queue : Op → Nat
  | Op.add q _ => q
  | Op.remove q _ => q
  | Op.wakeup q => q
  | Op.wakeup_all q => q

/-- Every wait queue `q` is a well-formed list with members `ms q`, no task is a member
of two queues, and the link of a task that is in no queue is unlinked. -/
def queues_wf (m : Mem) (ms : Nat → List Nat) : Prop :=
  (∀ q, is_queue m q (ms q)) ∧
  (∀ q1 q2 t, t ∈ ms q1 → t ∈ ms q2 → q1 = q2) ∧
  (∀ t, (∀ q, t ∉ ms q) →
    m (Ptr.task_list t) = { prev := Ptr.task_list t, next := Ptr.task_list t })

/-- The caller's side of `wait_queue_add`: the task is not, at the time of the call, a
member of a wait queue other than the one it is added to. -/
def add_ok (op : Op) (m : Mem) : Prop :=
  match op with
  | Op.add q t => ∀ q2 l, q2 ≠ q → is_queue m q2 l → t ∉ l
  | _ => True

/-- Every `wait_queue_add` of the run is called with `add_ok`. -/
def disciplined (fuel : Nat) : List Op → Kernel → Prop
  | [], _ => True
  | op :: ops, s =>
    add_ok op s.mem ∧
      match step fuel op s with
      | Outcome.returned s1 => disciplined fuel ops s1
      | _ => True

/-- Effect of one call on the members `l` of its queue, read off the four functions:
the members afterwards and the tasks handed to `task_wakeup`, in order; `none` when the
call ends in the assertion fault. -/
def members_step : Op → List Nat → Option (List Nat × List Nat)
  | Op.add _ t, l => if t ∈ l then none else some (l ++ [t], [])
  | Op.remove _ t, l => some (l.erase t, [])
  | Op.wakeup _, l => some (l.drop 1, l.take 1)
  | Op.wakeup_all _, l => some ([], l)

/-- Effect of a run of calls on the members of their queue: the members at the end and
the tasks handed to `task_wakeup`; a faulting add ends the run. -/
def members_run : List Op → List Nat → List Nat × List Nat
  | [], l => (l, [])
  | op :: ops, l =>
    match members_step op l with
    | none => (l, [])
    | some (l2, w) => ((members_run ops l2).1, w ++ (members_run ops l2).2)

/-- The state of the tasks after `task_wakeup` has been called on each of `w`. -/
def woken_state (w : List Ptr) (st : Ptr → task_state) : Ptr → task_state :=
  fun z => if z ∈ w ∧ st z = task_state.TASK_BLOCKED then task_state.TASK_READY else st z

/-- The caller's side of `wait_queue_add` for invariant I2 (spec 4.1: "callers are
responsible for setting BLOCKED themselves"): the task is BLOCKED when it is added. -/
def add_blocked (op : Op) (s : Kernel) : Bool :=
  match op with
  | Op.add _ t => decide (s.state (Ptr.task_list t) = task_state.TASK_BLOCKED)
  | _ => true

/-- Every `wait_queue_add` of the run is called with `add_blocked`. -/
def blocked_adds (fuel : Nat) : List Op → Kernel → Bool
  | [], _ => true
  | op :: ops, s =>
    add_blocked op s &&
      match step fuel op s with
      | Outcome.returned s1 => blocked_adds fuel ops s1
      | _ => true

/-- Whether every `task_wakeup` among the events `tr` is called while the lock of queue
`q` is in state `b` (`true`: held, `false`: free); `held` is the state of the lock before
the first event. -/
def wakes_with_lock (q : Nat) (b : Bool) : Bool → List Event → Bool
  | _, [] => true
  | held, Event.acquire q2 :: tr => wakes_with_lock q b (if q2 = q then true else held) tr
  | held, Event.release q2 :: tr => wakes_with_lock q b (if q2 = q then false else held) tr
  | held, Event.wake _ :: tr => (held == b) && wakes_with_lock q b held tr

/-! ## `src/arch/x86/mach-i386/drivers/virtual/vfloppy.c` -/

/-- Number of values of an `unsigned long` on the i386 target: arithmetic on offsets,
lengths and addresses is modulo this number. -/
def ULONG_RANGE : Nat := 4294967296

/-- The macro `VFLOPPY_SECTORS` (vfloppy.c line 20). -/
def VFLOPPY_SECTORS : Nat := 2048

/-- The two values of `iostatus_t` the driver uses. -/
inductive iostatus_t where
  | IO_SUCCESS
  | IO_FAILED
deriving DecidableEq, Repr

/-- The struct `device_extension_t` (vfloppy.c lines 29-34).  `buffer o` is the byte at
the address `extension->buffer + o`, for every offset `o` below `ULONG_RANGE`; only the
offsets below `buflen` belong to the disk. -/
structure device_extension_t where
  buffer : Nat → Nat
  buflen : Nat
  sectors : Nat

/-- The fields of `io_request_t` the driver touches: `parame.read` / `parame.write`
offset and length, the user buffer (`user_buffer i` is its byte `i`), `io_status`, and
the number of calls of `io_complete_request` made on the request. -/
structure io_request_t where
  offset : Nat
  length : Nat
  user_buffer : Nat → Nat
  status : iostatus_t
  infomation : Nat
  completed : Nat

/-- Modelled from the spec: `memcpy` (string.h) is not under src/.  Copies `n` bytes,
lowest first: byte `i` of the source, at `src_at i`, goes to byte `i` of the
destination, at `dst_at i`. -/
def memcpy (dst : Nat → Nat) (dst_at : Nat → Nat) (src : Nat → Nat) (src_at : Nat → Nat) :
    Nat → (Nat → Nat)
  | 0 => dst
  | n + 1 => fun a =>
    if a = dst_at n then src (src_at n) else memcpy dst dst_at src src_at n a

/-- Modelled from the spec: `io_complete_request` is not under src/.  The completion
notifier of the I/O framework (spec 4.3); the model counts its calls. -/
def io_complete_request (ioreq : io_request_t) : io_request_t :=
  { ioreq with completed := ioreq.completed + 1 }

/-- Address of byte `i` of a transfer that starts at sector `off`:
`extension->buffer + off * SECTOR_SIZE + i`, as an offset from `extension->buffer`. -/
def device_at (SECTOR_SIZE off : Nat) (i : Nat) : Nat :=
  (off * SECTOR_SIZE % ULONG_RANGE + i) % ULONG_RANGE

/-- The function `vfloppy_read` (vfloppy.c lines 36-63).  `SECTOR_SIZE` is defined
outside src/ and is a parameter. -/
def vfloppy_read (SECTOR_SIZE : Nat) (extension : device_extension_t) (ioreq : io_request_t) :
    iostatus_t × device_extension_t × io_request_t :=
  let off := ioreq.offset
  let length := ioreq.length
  if (off + length / SECTOR_SIZE) % ULONG_RANGE ≥ extension.sectors then
    let status := iostatus_t.IO_FAILED
    (status, extension, io_complete_request { ioreq with status := status })
  else
    let status := iostatus_t.IO_SUCCESS
    let ioreq1 := { ioreq with
      user_buffer := memcpy ioreq.user_buffer id extension.buffer
        (device_at SECTOR_SIZE off) length,
      infomation := length }
    (status, extension, io_complete_request { ioreq1 with status := status })

/-- The function `vfloppy_write` (vfloppy.c lines 65-92). -/
def vfloppy_write (SECTOR_SIZE : Nat) (extension : device_extension_t) (ioreq : io_request_t) :
    iostatus_t × device_extension_t × io_request_t :=
  let off := ioreq.offset
  let length := ioreq.length
  if (off + length / SECTOR_SIZE) % ULONG_RANGE ≥ extension.sectors then
    let status := iostatus_t.IO_FAILED
    (status, extension, io_complete_request { ioreq with status := status })
  else
    let status := iostatus_t.IO_SUCCESS
    let extension1 := { extension with
      buffer := memcpy extension.buffer (device_at SECTOR_SIZE off) ioreq.user_buffer id
        length }
    let ioreq1 := { ioreq with infomation := length }
    (status, extension1, io_complete_request { ioreq1 with status := status })

/-- The function `vfloppy_enter` (vfloppy.c lines 123-146), from the status returned by
`io_create_device` (not under src/) and the memory at `VFLOPPY_RAM`: on success the
extension has `VFLOPPY_SECTORS` sectors and `buflen = sectors * SECTOR_SIZE`. -/
def vfloppy_enter (SECTOR_SIZE : Nat) (status : iostatus_t) (ram : Nat → Nat) :
    iostatus_t × Option device_extension_t :=
  if status ≠ iostatus_t.IO_SUCCESS then (status, none)
  else (status, some
    { buffer := ram,
      sectors := VFLOPPY_SECTORS,
      buflen := VFLOPPY_SECTORS * SECTOR_SIZE % ULONG_RANGE })

/-- The extension `vfloppy_enter` sets up for 512-byte sectors over a zeroed memory. -/
def floppy : device_extension_t :=
  { buffer := fun _ => 0, sectors := VFLOPPY_SECTORS, buflen := VFLOPPY_SECTORS * 512 }

/-- A request for `length` bytes at sector `offset`, with a user buffer of ones. -/
def request (offset length : Nat) : io_request_t :=
  { offset := offset, length := length, user_buffer := fun _ => 1,
    status := iostatus_t.IO_SUCCESS, infomation := 0, completed := 0 }

@[simp] theorem set_prev_prev (p v x : Ptr) (m : Mem) :
    (set_prev p v m x).prev = if x = p then v else (m x).prev := by
  unfold set_prev; split <;> rfl

@[simp] theorem set_prev_next (p v x : Ptr) (m : Mem) :
    (set_prev p v m x).next = (m x).next := by
  unfold set_prev; split <;> rfl

@[simp] theorem set_next_next (p v x : Ptr) (m : Mem) :
    (set_next p v m x).next = if x = p then v else (m x).next := by
  unfold set_next; split <;> rfl

@[simp] theorem set_next_prev (p v x : Ptr) (m : Mem) :
    (set_next p v m x).prev = (m x).prev := by
  unfold set_next; split <;> rfl

theorem list_t_ext {a b : list_t} (hp : a.prev = b.prev) (hn : a.next = b.next) : a = b := by
  cases a; cases b; simp_all

theorem list_add_tail_next (new h x : Ptr) (m : Mem) :
    (list_add_tail new h m x).next =
      if x = (m h).prev then new else if x = new then h else (m x).next := by
  simp [list_add_tail, __list_add]

theorem list_add_tail_prev (new h x : Ptr) (m : Mem) :
    (list_add_tail new h m x).prev =
      if x = new then (m h).prev else if x = h then new else (m x).prev := by
  simp [list_add_tail, __list_add]

theorem list_del_next (node x : Ptr) (m : Mem) :
    (list_del node m x).next =
      if x = node then node else if x = (m node).prev then (m node).next else (m x).next := by
  simp [list_del, INIT_LIST_HEAD, __list_del]

theorem list_del_prev (node x : Ptr) (m : Mem) :
    (list_del node m x).prev =
      if x = node then node else if x = (m node).next then (m node).prev else (m x).prev := by
  simp [list_del, INIT_LIST_HEAD, __list_del]

theorem list_del_init_eq (node : Ptr) (m : Mem) : list_del_init node m = list_del node m := rfl

/-! ## Chains -/

theorem seg_congr {m m2 : Mem} : ∀ (a : Ptr) (l : List Ptr) (b : Ptr),
    (∀ x ∈ a :: l, (m2 x).next = (m x).next) →
    (∀ x ∈ l ++ [b], (m2 x).prev = (m x).prev) →
    seg m a l b → seg m2 a l b := by
  intro a l
  induction l generalizing a with
  | nil =>
    intro b hn hp h
    simp only [seg, link] at *
    rw [hn a (by simp), hp b (by simp)]
    exact h
  | cons x xs ih =>
    intro b hn hp h
    simp only [seg, link] at *
    refine ⟨⟨?_, ?_⟩, ih x b ?_ ?_ h.2⟩
    · rw [hn a (by simp)]; exact h.1.1
    · rw [hp x (by simp)]; exact h.1.2
    · intro y hy; exact hn y (by simp at hy ⊢; tauto)
    · intro y hy; exact hp y (by simp at hy ⊢; tauto)

theorem seg_append {m : Mem} : ∀ (a : Ptr) (l1 : List Ptr) (x : Ptr) (l2 : List Ptr) (b : Ptr),
    seg m a (l1 ++ x :: l2) b ↔ seg m a l1 x ∧ seg m x l2 b := by
  intro a l1
  induction l1 generalizing a with
  | nil => intro x l2 b; simp [seg]
  | cons y ys ih => intro x l2 b; simp [seg, ih, and_assoc]

theorem seg_prev_mem {m : Mem} : ∀ (a : Ptr) (l : List Ptr) (b : Ptr),
    seg m a l b → (m b).prev ∈ a :: l := by
  intro a l
  induction l generalizing a with
  | nil => intro b h; simp [seg, link] at h; simp [h.2]
  | cons x xs ih => intro b h; exact List.mem_cons_of_mem _ (ih x b h.2)

theorem seg_next_mem {m : Mem} (a : Ptr) (l : List Ptr) (b : Ptr)
    (h : seg m a l b) : (m a).next ∈ l ++ [b] := by
  cases l with
  | nil => simp [seg, link] at h; simp [h.1]
  | cons x xs => simp [seg, link] at h; simp [h.1.1]

theorem seg_add_tail {m : Mem} (new h : Ptr) : ∀ (a : Ptr) (l : List Ptr),
    seg m a l h → (a :: l).Nodup → new ∉ a :: l → h ∉ l → new ≠ h →
    seg (list_add_tail new h m) a (l ++ [new]) h := by
  intro a l
  induction l generalizing a with
  | nil =>
    intro hs _ hnew _ hne
    simp only [seg, link] at hs
    have hna : new ≠ a := by simpa using hnew
    simp only [List.nil_append, seg, link, list_add_tail_next, list_add_tail_prev, hs.2]
    simp [hna, hne.symm]
  | cons x xs ih =>
    intro hs hnd hnew hh hne
    simp only [seg, link] at hs
    have hnd2 : (x :: xs).Nodup := (List.nodup_cons.mp hnd).2
    have hax : a ∉ x :: xs := (List.nodup_cons.mp hnd).1
    have hnew2 : new ∉ x :: xs := fun hc => hnew (List.mem_cons_of_mem _ hc)
    have hna : a ≠ new := fun hc => hnew (by simp [hc])
    have hh2 : h ∉ xs := fun hc => hh (List.mem_cons_of_mem _ hc)
    have hxh : x ≠ h := fun hc => hh (by simp [hc])
    have hxn : x ≠ new := fun hc => hnew2 (by simp [hc])
    have hp : (m h).prev ∈ x :: xs := seg_prev_mem x xs h hs.2
    have hap : a ≠ (m h).prev := fun hc => hax (hc ▸ hp)
    refine ⟨⟨?_, ?_⟩, ih x hs.2 hnd2 hnew2 hh2 hne⟩
    · rw [list_add_tail_next]; simp [hap, hna, hs.1.1]
    · rw [list_add_tail_prev]; simp [hxn, hxh, hs.1.2]

theorem seg_list_del {m : Mem} (x : Ptr) (l2 : List Ptr) (b : Ptr) : ∀ (a : Ptr) (l1 : List Ptr),
    seg m a (l1 ++ x :: l2) b → (a :: (l1 ++ x :: l2)).Nodup → b ∉ l1 ++ x :: l2 →
    seg (list_del x m) a (l1 ++ l2) b := by
  intro a l1
  induction l1 generalizing a with
  | nil =>
    intro hs hnd hb
    simp only [List.nil_append, seg, link] at hs hnd hb ⊢
    have hax : a ≠ x := fun hc => (List.nodup_cons.mp hnd).1 (by simp [hc])
    have hbx : b ≠ x := fun hc => hb (by simp [hc])
    cases l2 with
    | nil =>
      simp only [seg, link] at hs ⊢
      rw [list_del_next, list_del_prev]
      simp [hax, hbx, hs.1.2, hs.2.1]
    | cons y ys =>
      simp only [seg, link] at hs ⊢
      have hnd3 : (x :: y :: ys).Nodup := (List.nodup_cons.mp hnd).2
      have hyx : y ≠ x := fun hc => (List.nodup_cons.mp hnd3).1 (by simp [hc])
      have hnd4 : (y :: ys).Nodup := (List.nodup_cons.mp hnd3).2
      refine ⟨⟨?_, ?_⟩, ?_⟩
      · rw [list_del_next]; simp [hax, hs.1.2, hs.2.1.1]
      · rw [list_del_prev]; simp [hyx, hs.1.2, hs.2.1.1]
      · refine seg_congr y ys b ?_ ?_ hs.2.2
        · intro z hz
          have hzx : z ≠ x := fun hc => (List.nodup_cons.mp hnd3).1 (hc ▸ hz)
          have hza : z ≠ a := fun hc => (List.nodup_cons.mp hnd).1 (hc ▸ List.mem_cons_of_mem _ hz)
          rw [list_del_next]; simp [hzx, hs.1.2, hza]
        · intro z hz
          have hzx : z ≠ x := by
            intro hc; subst hc
            rcases List.mem_append.mp hz with h1 | h1
            · exact (List.nodup_cons.mp hnd3).1 (List.mem_cons_of_mem _ h1)
            · simp at h1; exact hbx h1.symm
          have hzy : z ≠ y := by
            intro hc; subst hc
            rcases List.mem_append.mp hz with h1 | h1
            · exact (List.nodup_cons.mp hnd4).1 h1
            · simp at h1; subst h1; exact hb (by simp)
          rw [list_del_prev]; simp [hzx, hs.2.1.1, hzy]
  | cons z zs ih =>
    intro hs hnd hb
    simp only [List.cons_append, seg, link] at hs hnd hb ⊢
    have hnd2 : (z :: (zs ++ x :: l2)).Nodup := (List.nodup_cons.mp hnd).2
    have haz : a ∉ z :: (zs ++ x :: l2) := (List.nodup_cons.mp hnd).1
    have hb2 : b ∉ zs ++ x :: l2 := fun hc => hb (List.mem_cons_of_mem _ hc)
    have hsp := (seg_append z zs x l2 b).mp hs.2
    have hp : (m x).prev ∈ z :: zs := seg_prev_mem z zs x hsp.1
    have hn : (m x).next ∈ l2 ++ [b] := seg_next_mem x l2 b hsp.2
    have hax : a ≠ x := fun hc => haz (by simp [hc])
    have hap : a ≠ (m x).prev := by
      intro hc; apply haz; rw [hc]
      rcases List.mem_cons.mp hp with h1 | h1
      · simp [h1]
      · simp [h1]
    have hzx : z ≠ x := fun hc => (List.nodup_cons.mp hnd2).1 (by simp [hc])
    have hzn : z ≠ (m x).next := by
      intro hc
      rcases List.mem_append.mp hn with h1 | h1
      · exact (List.nodup_cons.mp hnd2).1 (by rw [hc]; simp [h1])
      · simp at h1; exact hb (by rw [← h1, ← hc]; simp)
    refine ⟨⟨?_, ?_⟩, ih z hs.2 hnd2 hb2⟩
    · rw [list_del_next]; simp [hax, hap, hs.1.1]
    · rw [list_del_prev]; simp [hzx, hzn, hs.1.2]

theorem list_del_self (x : Ptr) (m : Mem) : list_del x m x = { prev := x, next := x } := by
  apply list_t_ext
  · rw [list_del_prev]; simp
  · rw [list_del_next]; simp

theorem list_del_frame (x y : Ptr) (m : Mem) (h1 : y ≠ x) (h2 : y ≠ (m x).prev)
    (h3 : y ≠ (m x).next) : list_del x m y = m y := by
  apply list_t_ext
  · rw [list_del_prev]; simp [h1, h3]
  · rw [list_del_next]; simp [h1, h2]

theorem list_add_tail_frame (new h y : Ptr) (m : Mem) (h1 : y ≠ new) (h2 : y ≠ h)
    (h3 : y ≠ (m h).prev) : list_add_tail new h m y = m y := by
  apply list_t_ext
  · rw [list_add_tail_prev]; simp [h1, h2]
  · rw [list_add_tail_next]; simp [h1, h3]

theorem list_find_loop_seg {m : Mem} (t h : Ptr) : ∀ (l : List Ptr) (a : Ptr) (fuel : Nat),
    seg m a l h → h ∉ l → l.length < fuel →
    list_find_loop m t h fuel (m a).next = some (decide (t ∈ l)) := by
  intro l
  induction l with
  | nil =>
    intro a fuel hs _ hf
    obtain ⟨f, rfl⟩ : ∃ f, fuel = f + 1 := ⟨fuel - 1, by simp at hf; omega⟩
    simp only [seg, link] at hs
    simp [list_find_loop, hs.1]
  | cons x xs ih =>
    intro a fuel hs hh hf
    obtain ⟨f, rfl⟩ : ∃ f, fuel = f + 1 := ⟨fuel - 1, by simp at hf; omega⟩
    simp only [seg, link] at hs
    have hxh : x ≠ h := fun hc => hh (by simp [hc])
    have hh2 : h ∉ xs := fun hc => hh (List.mem_cons_of_mem _ hc)
    rw [hs.1.1, list_find_loop]
    by_cases hxt : x = t
    · subst hxt; simp [hxh]
    · have := ih x f hs.2 hh2 (by simp at hf; omega)
      simp only [hxh, hxt, if_false, this]
      have hne : t ≠ x := fun hc => hxt hc.symm
      simp [hne]

theorem wait_queue_remove_loop_seg (t h : Ptr) :
    ∀ (l : List Ptr) (a : Ptr) (fuel : Nat) (s : Kernel),
    seg s.mem a l h → h ∉ l → l.length < fuel →
    ∃ s2, list_for_each_owner_safe_loop h (wait_queue_remove_body t) fuel (s.mem a).next
        (s.mem (s.mem a).next).next s = some s2 ∧
      s2.mem = (if t ∈ l then list_del_init t s.mem else s.mem) ∧
      s2.state = s.state ∧ s2.locked = s.locked ∧ s2.irq = s.irq ∧
      s2.trace = s.trace := by
  intro l
  induction l with
  | nil =>
    intro a fuel s hs _ hf
    obtain ⟨f, rfl⟩ : ∃ f, fuel = f + 1 := ⟨fuel - 1, by simp at hf; omega⟩
    simp only [seg, link] at hs
    exact ⟨s, by simp [list_for_each_owner_safe_loop, hs.1], by simp, rfl, rfl, rfl, rfl⟩
  | cons x xs ih =>
    intro a fuel s hs hh hf
    obtain ⟨f, rfl⟩ : ∃ f, fuel = f + 1 := ⟨fuel - 1, by simp at hf; omega⟩
    simp only [seg, link] at hs
    have hxh : x ≠ h := fun hc => hh (by simp [hc])
    have hh2 : h ∉ xs := fun hc => hh (List.mem_cons_of_mem _ hc)
    rw [hs.1.1, list_for_each_owner_safe_loop]
    by_cases hxt : x = t
    · subst hxt
      exact ⟨call_list_del_init x s, by simp [hxh, wait_queue_remove_body],
        by simp [call_list_del_init, log_access], rfl, rfl, rfl, rfl⟩
    · obtain ⟨s2, hrun, hmem, hstate, hlocked, hirq, htrace⟩ :=
        ih x f (call_list_next_owner (s.mem x).next s).2 hs.2 hh2 (by simp at hf; omega)
      have hne : t ≠ x := fun hc => hxt hc.symm
      refine ⟨s2, ?_, ?_, hstate, hlocked, hirq, htrace⟩
      · simp only [hxh, hxt, if_false, wait_queue_remove_body]
        exact hrun
      · rw [hmem]
        simp only [List.mem_cons, hne, false_or]
        rfl

theorem wait_queue_wakeup_all_loop_spec (h : Ptr) : ∀ (l : List Ptr) (fuel : Nat) (s : Kernel),
    seg s.mem h l h → (h :: l).Nodup → l.length < fuel →
    ∃ s2, list_for_each_owner_safe_loop h wait_queue_wakeup_all_body fuel (s.mem h).next
        (s.mem (s.mem h).next).next s = some s2 ∧
      s2.mem = (fun z => if z ∈ h :: l then { prev := z, next := z } else s.mem z) ∧
      s2.state = (fun z => if z ∈ l ∧ s.state z = task_state.TASK_BLOCKED
                           then task_state.TASK_READY else s.state z) ∧
      s2.locked = s.locked ∧ s2.irq = s.irq ∧
      s2.trace = s.trace ++ l.map Event.wake := by
  intro l
  induction l with
  | nil =>
    intro fuel s hs _ hf
    obtain ⟨f, rfl⟩ : ∃ f, fuel = f + 1 := ⟨fuel - 1, by simp at hf; omega⟩
    simp only [seg, link] at hs
    refine ⟨s, by simp [list_for_each_owner_safe_loop, hs.1], ?_, ?_, rfl, rfl, by simp⟩
    · funext z
      by_cases hz : z = h
      · subst hz; simp; exact list_t_ext hs.2 hs.1
      · simp [hz]
    · funext z; simp
  | cons x xs ih =>
    intro fuel s hs hnd hf
    obtain ⟨f, rfl⟩ : ∃ f, fuel = f + 1 := ⟨fuel - 1, by simp at hf; omega⟩
    have hs0 := hs
    simp only [seg, link] at hs
    have hhx : h ∉ x :: xs := (List.nodup_cons.mp hnd).1
    have hnd1 : (x :: xs).Nodup := (List.nodup_cons.mp hnd).2
    have hxh : x ≠ h := fun hc => hhx (by simp [hc])
    have hxxs : x ∉ xs := (List.nodup_cons.mp hnd1).1
    have hhxs : h ∉ xs := fun hc => hhx (List.mem_cons_of_mem _ hc)
    have hnd2 : (h :: xs).Nodup := List.nodup_cons.mpr ⟨hhxs, (List.nodup_cons.mp hnd1).2⟩
    have hseg : seg (list_del x s.mem) h ([] ++ xs) h :=
      seg_list_del x xs h h [] (by simpa using hs0) (by simpa using hnd) (by simpa using hhx)
    have hnext : (list_del x s.mem h).next = (s.mem x).next := by
      rw [list_del_next]; simp [hxh.symm, hs.1.2]
    obtain ⟨s2, hrun, hmem, hstate, hlocked, hirq, htrace⟩ :=
      ih f (call_list_next_owner (s.mem x).next (task_wakeup x (call_list_del x s))).2
        (by simpa using hseg) hnd2 (by simp at hf; omega)
    replace hmem : s2.mem = (fun z => if z ∈ h :: xs then { prev := z, next := z }
        else (task_wakeup x { s with mem := list_del x s.mem }).mem z) := hmem
    replace hstate : s2.state = (fun z =>
        if z ∈ xs ∧ (task_wakeup x { s with mem := list_del x s.mem }).state z
            = task_state.TASK_BLOCKED
        then task_state.TASK_READY
        else (task_wakeup x { s with mem := list_del x s.mem }).state z) := hstate
    replace hlocked : s2.locked = (task_wakeup x { s with mem := list_del x s.mem }).locked :=
      hlocked
    replace hirq : s2.irq = (task_wakeup x { s with mem := list_del x s.mem }).irq := hirq
    replace htrace : s2.trace = (task_wakeup x { s with mem := list_del x s.mem }).trace
        ++ xs.map Event.wake := htrace
    refine ⟨s2, ?_, ?_, ?_, ?_, ?_, ?_⟩
    · rw [hs.1.1, list_for_each_owner_safe_loop]
      simp only [hxh, if_false, wait_queue_wakeup_all_body]
      have hm : (call_list_next_owner (s.mem x).next (task_wakeup x (call_list_del x s))).2.mem
          = list_del x s.mem := rfl
      rw [hm, hnext] at hrun
      exact hrun
    · rw [hmem]
      funext z
      by_cases hz : z ∈ h :: xs
      · have : z ∈ h :: x :: xs := by simp at hz ⊢; tauto
        simp [hz, this]
      · by_cases hzx : z = x
        · subst hzx
          simp only [hz, if_false, task_wakeup, list_del_self]
          simp
        · have hz2 : z ∉ h :: x :: xs := by simp at hz ⊢; tauto
          have hzh : z ≠ h := fun hc => hz (by simp [hc])
          have hzn : z ≠ (s.mem x).next := by
            intro hc
            have := seg_next_mem x xs h hs.2
            rw [← hc] at this
            simp at this hz
            tauto
          simp only [hz, hz2, if_false, task_wakeup]
          exact list_del_frame x z s.mem hzx (by rw [hs.1.2]; exact hzh) hzn
    · rw [hstate]
      funext z
      by_cases hzx : z = x
      · subst hzx
        simp only [task_wakeup]
        by_cases hb : s.state z = task_state.TASK_BLOCKED
        · simp [hxxs, hb]
        · simp [hxxs, hb]
      · simp [task_wakeup, hzx]
    · rw [hlocked]; rfl
    · rw [hirq]; rfl
    · rw [htrace]; simp [task_wakeup]

/-! ## Well-formed wait lists -/

theorem task_list_injective : Function.Injective Ptr.task_list := by
  intro a b h; cases h; rfl

theorem task_mem_map (t : Nat) (l : List Nat) :
    Ptr.task_list t ∈ l.map Ptr.task_list ↔ t ∈ l := by
  simp

theorem head_not_mem_map (q : Nat) (l : List Nat) :
    Ptr.wait_list q ∉ l.map Ptr.task_list := by
  simp

theorem nodup_head_map (q : Nat) {l : List Nat} (h : l.Nodup) :
    (Ptr.wait_list q :: l.map Ptr.task_list).Nodup :=
  List.nodup_cons.mpr ⟨head_not_mem_map q l, h.map task_list_injective⟩

theorem is_queue_nil (m : Mem) (q : Nat) :
    is_queue m q [] ↔ m (Ptr.wait_list q) = { prev := Ptr.wait_list q, next := Ptr.wait_list q } := by
  simp only [is_queue, List.map_nil, seg, link, List.nodup_nil, true_and]
  constructor
  · intro h; exact list_t_ext h.2 h.1
  · intro h; rw [h]; exact ⟨rfl, rfl⟩

theorem is_queue_first (m : Mem) (q t : Nat) (rest : List Nat) (h : is_queue m q (t :: rest)) :
    (m (Ptr.wait_list q)).next = Ptr.task_list t := by
  simp only [is_queue, List.map_cons, seg, link] at h
  exact h.2.1.1

theorem is_queue_first_nil (m : Mem) (q : Nat) (h : is_queue m q []) :
    (m (Ptr.wait_list q)).next = Ptr.wait_list q := by
  rw [(is_queue_nil m q).mp h]

theorem seg_unique {m : Mem} (b : Ptr) : ∀ (l1 l2 : List Ptr) (a : Ptr),
    seg m a l1 b → seg m a l2 b → b ∉ l1 → b ∉ l2 → l1 = l2 := by
  intro l1
  induction l1 with
  | nil =>
    intro l2 a h1 h2 _ hb2
    cases l2 with
    | nil => rfl
    | cons y ys =>
      simp only [seg, link] at h1 h2
      exact absurd (h2.1.1.symm.trans h1.1) (fun hc => hb2 (by simp [hc]))
  | cons x xs ih =>
    intro l2 a h1 h2 hb1 hb2
    cases l2 with
    | nil =>
      simp only [seg, link] at h1 h2
      exact absurd (h1.1.1.symm.trans h2.1) (fun hc => hb1 (by simp [hc]))
    | cons y ys =>
      simp only [seg, link] at h1 h2
      have hxy : x = y := h1.1.1.symm.trans h2.1.1
      subst hxy
      rw [ih ys x h1.2 h2.2 (fun hc => hb1 (List.mem_cons_of_mem _ hc))
        (fun hc => hb2 (List.mem_cons_of_mem _ hc))]

theorem is_queue_unique {m : Mem} {q : Nat} {l1 l2 : List Nat}
    (h1 : is_queue m q l1) (h2 : is_queue m q l2) : l1 = l2 := by
  have := seg_unique (Ptr.wait_list q) _ _ _ h1.2 h2.2 (head_not_mem_map q l1)
    (head_not_mem_map q l2)
  exact List.map_injective_iff.mpr task_list_injective this

theorem is_queue_congr {m m2 : Mem} {q : Nat} {l : List Nat} (h : is_queue m q l)
    (hq : m2 (Ptr.wait_list q) = m (Ptr.wait_list q))
    (hl : ∀ t ∈ l, m2 (Ptr.task_list t) = m (Ptr.task_list t)) : is_queue m2 q l := by
  refine ⟨h.1, seg_congr _ _ _ ?_ ?_ h.2⟩
  · intro x hx
    rcases List.mem_cons.mp hx with h1 | h1
    · rw [h1, hq]
    · obtain ⟨t, ht, rfl⟩ := List.mem_map.mp h1
      rw [hl t ht]
  · intro x hx
    rcases List.mem_append.mp hx with h1 | h1
    · obtain ⟨t, ht, rfl⟩ := List.mem_map.mp h1
      rw [hl t ht]
    · simp at h1; rw [h1, hq]

theorem is_queue_add_tail {m : Mem} {q : Nat} {l : List Nat} (t : Nat)
    (h : is_queue m q l) (ht : t ∉ l) :
    is_queue (list_add_tail (Ptr.task_list t) (Ptr.wait_list q) m) q (l ++ [t]) := by
  refine ⟨?_, ?_⟩
  · exact List.Nodup.append h.1 (List.nodup_singleton t) (by simpa using ht)
  · have := seg_add_tail (Ptr.task_list t) (Ptr.wait_list q) (Ptr.wait_list q)
      (l.map Ptr.task_list) h.2 (nodup_head_map q h.1) (by simpa using ht)
      (head_not_mem_map q l) (by simp)
    simpa using this

theorem erase_middle (t : Nat) (l1 l2 : List Nat) (h : (l1 ++ t :: l2).Nodup) :
    (l1 ++ t :: l2).erase t = l1 ++ l2 := by
  have h1 : t ∉ l1 := by
    intro hc
    have := (List.nodup_append.mp h).2.2
    exact this hc (by simp)
  rw [List.erase_append_right _ h1]
  simp

theorem is_queue_del {m : Mem} {q : Nat} {l : List Nat} (t : Nat)
    (h : is_queue m q l) (ht : t ∈ l) :
    is_queue (list_del (Ptr.task_list t) m) q (l.erase t) := by
  obtain ⟨l1, l2, rfl⟩ := List.append_of_mem ht
  rw [erase_middle t l1 l2 h.1]
  refine ⟨?_, ?_⟩
  · have := h.1
    rw [List.nodup_append] at this ⊢
    refine ⟨this.1, (List.nodup_cons.mp this.2.1).2, ?_⟩
    intro a ha hb
    exact this.2.2 ha (List.mem_cons_of_mem _ hb)
  · have hs := h.2
    have hnd := nodup_head_map q h.1
    simp only [List.map_append, List.map_cons] at hs hnd ⊢
    exact seg_list_del (Ptr.task_list t) _ _ _ _ hs hnd (by simp)

/-! ## The four operations on a well-formed wait list -/

theorem spin_lock_irqsave_free (q : Nat) (s : Kernel) (h : s.locked q = false) :
    spin_lock_irqsave q s = some (s.irq, lock_acquired q s) := by
  simp [spin_lock_irqsave, h]

theorem unlock_locked (q : Nat) (flags : Bool) (s s2 : Kernel) (h : s.locked q = false)
    (h2 : s2.locked = (lock_acquired q s).locked) :
    (spin_unlock_irqrestore q flags s2).locked = s.locked := by
  funext x
  by_cases hx : x = q
  · subst hx; simp [spin_unlock_irqrestore, h]
  · simp [spin_unlock_irqrestore, lock_acquired, h2, hx]

theorem list_find_is_queue {m : Mem} {q : Nat} {l : List Nat} (fuel t : Nat)
    (hq : is_queue m q l) (hf : l.length < fuel) :
    list_find fuel (Ptr.task_list t) (Ptr.wait_list q) m = some (decide (t ∈ l)) := by
  unfold list_find
  rw [list_find_loop_seg (Ptr.task_list t) (Ptr.wait_list q) (l.map Ptr.task_list)
    (Ptr.wait_list q) fuel hq.2 (head_not_mem_map q l) (by simpa using hf)]
  simp

theorem wait_queue_add_returned (fuel q t : Nat) (s : Kernel) (l : List Nat)
    (hfree : s.locked q = false) (hq : is_queue s.mem q l) (hf : l.length < fuel)
    (ht : t ∉ l) :
    ∃ s2, wait_queue_add fuel q t s = Outcome.returned s2 ∧
      s2.mem = list_add_tail (Ptr.task_list t) (Ptr.wait_list q) s.mem ∧
      s2.state = s.state ∧ s2.locked = s.locked ∧ s2.irq = s.irq ∧
      s2.trace = s.trace ++ [Event.acquire q, Event.release q] := by
  have hfind : list_find fuel (Ptr.task_list t) (Ptr.wait_list q) (lock_acquired q s).mem
      = some false := by
    have := list_find_is_queue fuel t hq hf
    simpa [ht] using this
  refine ⟨spin_unlock_irqrestore q s.irq (call_list_add_tail (Ptr.task_list t)
      (Ptr.wait_list q) (log_access (list_call.list_find (Ptr.task_list t) (Ptr.wait_list q))
        (lock_acquired q s))), ?_, rfl, rfl,
      unlock_locked q _ s _ hfree rfl, rfl, ?_⟩
  · simp only [wait_queue_add, spin_lock_irqsave_free q s hfree, call_list_find, hfind, ASSERT]
    rfl
  · simp [spin_unlock_irqrestore, lock_acquired, call_list_add_tail, log_access]

theorem wait_queue_add_fault (fuel q t : Nat) (s : Kernel) (l : List Nat)
    (hfree : s.locked q = false) (hq : is_queue s.mem q l) (hf : l.length < fuel)
    (ht : t ∈ l) :
    wait_queue_add fuel q t s =
      Outcome.fault (log_access (list_call.list_find (Ptr.task_list t) (Ptr.wait_list q))
        (lock_acquired q s)) := by
  have hfind : list_find fuel (Ptr.task_list t) (Ptr.wait_list q) (lock_acquired q s).mem
      = some true := by
    have := list_find_is_queue fuel t hq hf
    simpa [ht] using this
  simp only [wait_queue_add, spin_lock_irqsave_free q s hfree, call_list_find, hfind, ASSERT]
  rfl

theorem wait_queue_remove_returned (fuel q t : Nat) (s : Kernel) (l : List Nat)
    (hfree : s.locked q = false) (hq : is_queue s.mem q l) (hf : l.length < fuel) :
    ∃ s2, wait_queue_remove fuel q t s = Outcome.returned s2 ∧
      s2.mem = (if t ∈ l then list_del_init (Ptr.task_list t) s.mem else s.mem) ∧
      s2.state = s.state ∧ s2.locked = s.locked ∧ s2.irq = s.irq ∧
      s2.trace = s.trace ++ [Event.acquire q, Event.release q] := by
  obtain ⟨s2, hrun, hmem, hstate, hlocked, hirq, htrace⟩ :=
    wait_queue_remove_loop_seg (Ptr.task_list t) (Ptr.wait_list q)
      (l.map Ptr.task_list) (Ptr.wait_list q) fuel
      (call_list_next_owner (call_list_first_owner (Ptr.wait_list q) (lock_acquired q s)).1
        (call_list_first_owner (Ptr.wait_list q) (lock_acquired q s)).2).2 hq.2
      (head_not_mem_map q l) (by simpa using hf)
  simp only [task_mem_map] at hmem
  refine ⟨spin_unlock_irqrestore q s.irq s2, ?_, ?_, ?_, unlock_locked q _ s _ hfree hlocked,
    rfl, ?_⟩
  · simp only [wait_queue_remove, spin_lock_irqsave_free q s hfree, list_for_each_owner_safe]
    exact congrArg (fun o => match o with
      | none => Outcome.out_of_fuel
      | some s2 => Outcome.returned (spin_unlock_irqrestore q s.irq s2)) hrun
  · simp only [spin_unlock_irqrestore, hmem]; rfl
  · simp only [spin_unlock_irqrestore, hstate]; rfl
  · simp only [spin_unlock_irqrestore, htrace]
    simp [call_list_next_owner, call_list_first_owner, log_access, lock_acquired]

theorem wait_queue_wakeup_empty (q : Nat) (s : Kernel) (hfree : s.locked q = false)
    (he : (s.mem (Ptr.wait_list q)).next = Ptr.wait_list q) :
    ∃ s2, wait_queue_wakeup q s = Outcome.returned s2 ∧
      s2.mem = s.mem ∧ s2.state = s.state ∧ s2.locked = s.locked ∧ s2.irq = s.irq ∧
      s2.trace = s.trace ++ [Event.acquire q, Event.release q] := by
  refine ⟨spin_unlock_irqrestore q s.irq (log_access (list_call.list_empty (Ptr.wait_list q))
      (lock_acquired q s)), ?_, rfl, rfl, unlock_locked q _ s _ hfree rfl, rfl, ?_⟩
  · have : (lock_acquired q s).mem = s.mem := rfl
    simp [wait_queue_wakeup, spin_lock_irqsave_free q s hfree, call_list_empty, list_empty,
      this, he]
  · simp [spin_unlock_irqrestore, lock_acquired, log_access]

theorem wait_queue_wakeup_first (q : Nat) (s : Kernel) (hfree : s.locked q = false)
    (he : (s.mem (Ptr.wait_list q)).next ≠ Ptr.wait_list q) :
    ∃ s2, wait_queue_wakeup q s = Outcome.returned s2 ∧
      s2.mem = list_del (s.mem (Ptr.wait_list q)).next s.mem ∧
      s2.state = (task_wakeup (s.mem (Ptr.wait_list q)).next s).state ∧
      s2.locked = s.locked ∧ s2.irq = s.irq ∧
      s2.trace = s.trace ++ [Event.acquire q, Event.wake (s.mem (Ptr.wait_list q)).next,
                             Event.release q] := by
  refine ⟨spin_unlock_irqrestore q s.irq (task_wakeup (s.mem (Ptr.wait_list q)).next
      (call_list_del (s.mem (Ptr.wait_list q)).next
        (log_access (list_call.list_first_owner (Ptr.wait_list q))
          (log_access (list_call.list_empty (Ptr.wait_list q)) (lock_acquired q s))))),
      ?_, rfl, rfl, unlock_locked q _ s _ hfree rfl, rfl, ?_⟩
  · have : (lock_acquired q s).mem = s.mem := rfl
    have h2 : ∀ c, (log_access c (lock_acquired q s)).mem = s.mem := fun _ => rfl
    simp [wait_queue_wakeup, spin_lock_irqsave_free q s hfree, call_list_empty, list_empty,
      this, h2, he, call_list_first_owner, list_first_owner]
  · simp [spin_unlock_irqrestore, lock_acquired, task_wakeup, call_list_del, log_access]

theorem wait_queue_wakeup_all_returned (fuel q : Nat) (s : Kernel) (l : List Nat)
    (hfree : s.locked q = false) (hq : is_queue s.mem q l) (hf : l.length < fuel) :
    ∃ s2, wait_queue_wakeup_all fuel q s = Outcome.returned s2 ∧
      s2.mem = (fun z => if z ∈ Ptr.wait_list q :: l.map Ptr.task_list
                         then { prev := z, next := z } else s.mem z) ∧
      s2.state = (fun z => if z ∈ l.map Ptr.task_list ∧ s.state z = task_state.TASK_BLOCKED
                           then task_state.TASK_READY else s.state z) ∧
      s2.locked = s.locked ∧ s2.irq = s.irq ∧
      s2.trace = s.trace ++ [Event.acquire q] ++ (l.map Ptr.task_list).map Event.wake
                   ++ [Event.release q] := by
  obtain ⟨s2, hrun, hmem, hstate, hlocked, hirq, htrace⟩ :=
    wait_queue_wakeup_all_loop_spec (Ptr.wait_list q) (l.map Ptr.task_list) fuel
      (call_list_next_owner (call_list_first_owner (Ptr.wait_list q) (lock_acquired q s)).1
        (call_list_first_owner (Ptr.wait_list q) (lock_acquired q s)).2).2
      hq.2 (nodup_head_map q hq.1) (by simpa using hf)
  refine ⟨spin_unlock_irqrestore q s.irq s2, ?_, ?_, ?_, unlock_locked q _ s _ hfree hlocked,
    rfl, ?_⟩
  · simp only [wait_queue_wakeup_all, spin_lock_irqsave_free q s hfree,
      list_for_each_owner_safe]
    exact congrArg (fun o => match o with
      | none => Outcome.out_of_fuel
      | some s2 => Outcome.returned (spin_unlock_irqrestore q s.irq s2)) hrun
  · simp only [spin_unlock_irqrestore, hmem]; rfl
  · simp only [spin_unlock_irqrestore, hstate]; rfl
  · simp only [spin_unlock_irqrestore, htrace]; rfl

/-! ## Single calls -/

/-- C2: `wait_queue_wakeup` on a queue whose members are `h :: rest` returns, leaves the
members `rest` in the same order and calls `task_wakeup` exactly once, on `h`; on an empty
queue it returns with the memory unchanged and calls `task_wakeup` not at all. -/
theorem wait_queue_wakeup_head (q : Nat) (s : Kernel) (hfree : s.locked q = false) :
    (∀ h rest, is_queue s.mem q (h :: rest) →
      ∃ s2, wait_queue_wakeup q s = Outcome.returned s2 ∧ is_queue s2.mem q rest ∧
        s2.trace = s.trace ++
          [Event.acquire q, Event.wake (Ptr.task_list h), Event.release q]) ∧
    (is_queue s.mem q [] →
      ∃ s2, wait_queue_wakeup q s = Outcome.returned s2 ∧ s2.mem = s.mem ∧
        s2.trace = s.trace ++ [Event.acquire q, Event.release q]) := by
  constructor
  · intro h rest hq
    have hfirst := is_queue_first s.mem q h rest hq
    obtain ⟨s2, hrun, hmem, _, _, _, htrace⟩ :=
      wait_queue_wakeup_first q s hfree (by rw [hfirst]; simp)
    refine ⟨s2, hrun, ?_, by rw [htrace, hfirst]⟩
    rw [hmem, hfirst]
    have := is_queue_del h hq (by simp)
    simpa using this
  · intro hq
    obtain ⟨s2, hrun, hmem, _, _, _, htrace⟩ :=
      wait_queue_wakeup_empty q s hfree (is_queue_first_nil s.mem q hq)
    exact ⟨s2, hrun, hmem, htrace⟩

theorem wait_queue_wakeup_head_witness :
    (∃ s2, wait_queue_wakeup 0 two_waiters = Outcome.returned s2 ∧ is_queue s2.mem 0 [8] ∧
      s2.trace = two_waiters.trace ++
        [Event.acquire 0, Event.wake (Ptr.task_list 7), Event.release 0]) ∧
    (∃ s2, wait_queue_wakeup 0 boot = Outcome.returned s2 ∧ s2.mem = boot.mem ∧
      s2.trace = boot.trace ++ [Event.acquire 0, Event.release 0]) :=
  ⟨(wait_queue_wakeup_head 0 two_waiters rfl).1 7 [8] (by decide),
   (wait_queue_wakeup_head 0 boot rfl).2 (by decide)⟩

/-- C4: `wait_queue_add` of a task `t` that is not among the members `l` returns and leaves
the members `l ++ [t]`: the previous members keep their places and `t` is the new tail. -/
theorem wait_queue_add_appends (fuel q t : Nat) (s : Kernel) (l : List Nat)
    (hfree : s.locked q = false) (hq : is_queue s.mem q l) (hf : l.length < fuel)
    (ht : t ∉ l) :
    ∃ s2, wait_queue_add fuel q t s = Outcome.returned s2 ∧ is_queue s2.mem q (l ++ [t]) := by
  obtain ⟨s2, hrun, hmem, _⟩ := wait_queue_add_returned fuel q t s l hfree hq hf ht
  exact ⟨s2, hrun, by rw [hmem]; exact is_queue_add_tail t hq ht⟩

theorem wait_queue_add_appends_witness :
    ∃ s2, wait_queue_add 3 0 9 two_waiters = Outcome.returned s2 ∧
      is_queue s2.mem 0 ([7, 8] ++ [9]) :=
  wait_queue_add_appends 3 0 9 two_waiters [7, 8] rfl (by decide) (by decide) (by decide)

/-- C5: on a queue with members `l`, `wait_queue_add` ends in the assertion fault exactly
when the task is one of the members, and the memory of link nodes at the fault is the one
the call started with. -/
theorem wait_queue_add_faults_iff (fuel q t : Nat) (s : Kernel) (l : List Nat)
    (hfree : s.locked q = false) (hq : is_queue s.mem q l) (hf : l.length < fuel) :
    ((∃ s2, wait_queue_add fuel q t s = Outcome.fault s2) ↔ t ∈ l) ∧
    (∀ s2, wait_queue_add fuel q t s = Outcome.fault s2 → s2.mem = s.mem) := by
  by_cases ht : t ∈ l
  · have hrun := wait_queue_add_fault fuel q t s l hfree hq hf ht
    refine ⟨⟨fun _ => ht, fun _ => ⟨_, hrun⟩⟩, ?_⟩
    intro s2 h2
    rw [hrun] at h2
    cases h2
    rfl
  · obtain ⟨s3, hrun, _⟩ := wait_queue_add_returned fuel q t s l hfree hq hf ht
    refine ⟨⟨?_, fun h => absurd h ht⟩, ?_⟩
    · rintro ⟨s2, h2⟩
      rw [hrun] at h2
      cases h2
    · intro s2 h2
      rw [hrun] at h2
      cases h2

theorem wait_queue_add_faults_iff_witness :
    ((∃ s2, wait_queue_add 3 0 8 two_waiters = Outcome.fault s2) ↔ 8 ∈ [7, 8]) ∧
    (∀ s2, wait_queue_add 3 0 8 two_waiters = Outcome.fault s2 → s2.mem = two_waiters.mem) :=
  wait_queue_add_faults_iff 3 0 8 two_waiters [7, 8] rfl (by decide) (by decide)

theorem woken_append (a b : List Event) : woken (a ++ b) = woken a ++ woken b := by
  simp [woken]

theorem woken_wakes (l : List Ptr) : woken (l.map Event.wake) = l := by
  induction l with
  | nil => rfl
  | cons x xs ih =>
    simp only [woken, List.map_cons, List.filterMap_cons] at ih ⊢
    rw [ih]

theorem woken_acquire (q : Nat) : woken [Event.acquire q] = [] := rfl

theorem woken_release (q : Nat) : woken [Event.release q] = [] := rfl

/-- C6: `wait_queue_remove` of a task that is not a member returns without fault and leaves
the memory of link nodes unchanged; for every task, member or not, a second
`wait_queue_remove` right after the first returns and leaves memory, task states and the
woken tasks as the first call left them. -/
theorem wait_queue_remove_idempotent (fuel q t : Nat) (s : Kernel) (l : List Nat)
    (hfree : s.locked q = false) (hq : is_queue s.mem q l) (hf : l.length < fuel) :
    (t ∉ l → ∃ s2, wait_queue_remove fuel q t s = Outcome.returned s2 ∧ s2.mem = s.mem ∧
      is_queue s2.mem q l) ∧
    (∃ s1 s2, wait_queue_remove fuel q t s = Outcome.returned s1 ∧
      wait_queue_remove fuel q t s1 = Outcome.returned s2 ∧
      s2.mem = s1.mem ∧ s2.state = s1.state ∧ woken s2.trace = woken s1.trace) := by
  obtain ⟨s1, hrun1, hmem1, _, hlocked1, _, _⟩ :=
    wait_queue_remove_returned fuel q t s l hfree hq hf
  constructor
  · intro ht
    refine ⟨s1, hrun1, by simp [hmem1, ht], ?_⟩
    rw [hmem1]; simpa [ht] using hq
  · by_cases ht : t ∈ l
    · have hq1 : is_queue s1.mem q (l.erase t) := by
        rw [hmem1]; simp only [ht, if_true, list_del_init_eq]
        exact is_queue_del t hq ht
      have hlen : (l.erase t).length < fuel :=
        Nat.lt_of_le_of_lt (List.length_erase_le t l) hf
      obtain ⟨s2, hrun2, hmem2, hstate2, _, _, htrace2⟩ :=
        wait_queue_remove_returned fuel q t s1 (l.erase t) (by rw [hlocked1]; exact hfree)
          hq1 hlen
      have hnot : t ∉ l.erase t := fun hc => (List.Nodup.mem_erase_iff hq.1).mp hc |>.1 rfl
      refine ⟨s1, s2, hrun1, hrun2, by simp [hmem2, hnot], hstate2, ?_⟩
      rw [htrace2]; simp [woken]
    · have hq1 : is_queue s1.mem q l := by rw [hmem1]; simpa [ht] using hq
      obtain ⟨s2, hrun2, hmem2, hstate2, _, _, htrace2⟩ :=
        wait_queue_remove_returned fuel q t s1 l (by rw [hlocked1]; exact hfree) hq1 hf
      refine ⟨s1, s2, hrun1, hrun2, by simp [hmem2, ht], hstate2, ?_⟩
      rw [htrace2]; simp [woken]

theorem wait_queue_remove_idempotent_witness :
    (∃ s2, wait_queue_remove 3 0 9 two_waiters = Outcome.returned s2 ∧
      s2.mem = two_waiters.mem ∧ is_queue s2.mem 0 [7, 8]) ∧
    (∃ s1 s2, wait_queue_remove 3 0 9 two_waiters = Outcome.returned s1 ∧
      wait_queue_remove 3 0 9 s1 = Outcome.returned s2 ∧
      s2.mem = s1.mem ∧ s2.state = s1.state ∧ woken s2.trace = woken s1.trace) :=
  have h := wait_queue_remove_idempotent 3 0 9 two_waiters [7, 8] rfl (by decide) (by decide)
  ⟨h.1 (by decide), h.2⟩

/-- C7: `wait_queue_remove` of a member `t` returns and leaves as members the old members
without `t`, the others in their original order, and calls `task_wakeup` on no task. -/
theorem wait_queue_remove_member (fuel q t : Nat) (s : Kernel) (l : List Nat)
    (hfree : s.locked q = false) (hq : is_queue s.mem q l) (hf : l.length < fuel)
    (ht : t ∈ l) :
    ∃ s2, wait_queue_remove fuel q t s = Outcome.returned s2 ∧
      is_queue s2.mem q (l.erase t) ∧
      l.erase t = l.filter (fun x => x != t) ∧
      s2.trace = s.trace ++ [Event.acquire q, Event.release q] ∧
      woken s2.trace = woken s.trace := by
  obtain ⟨s2, hrun, hmem, _, _, _, htrace⟩ :=
    wait_queue_remove_returned fuel q t s l hfree hq hf
  refine ⟨s2, hrun, ?_, List.Nodup.erase_eq_filter hq.1 t, htrace,
    by rw [htrace]; simp [woken]⟩
  rw [hmem]
  simp only [ht, if_true, list_del_init_eq]
  exact is_queue_del t hq ht

theorem wait_queue_remove_member_witness :
    ∃ s2, wait_queue_remove 3 0 7 two_waiters = Outcome.returned s2 ∧
      is_queue s2.mem 0 ([7, 8].erase 7) ∧
      [7, 8].erase 7 = [7, 8].filter (fun x => x != 7) ∧
      s2.trace = two_waiters.trace ++ [Event.acquire 0, Event.release 0] ∧
      woken s2.trace = woken two_waiters.trace :=
  wait_queue_remove_member 3 0 7 two_waiters [7, 8] rfl (by decide) (by decide) (by decide)

/-- C3: `wait_queue_wakeup_all` on a queue with members `l` returns, leaves the queue
empty, and its calls of `task_wakeup` are exactly the members, each once, oldest first;
on an empty queue there is no call. -/
theorem wait_queue_wakeup_all_drains (fuel q : Nat) (s : Kernel) (l : List Nat)
    (hfree : s.locked q = false) (hq : is_queue s.mem q l) (hf : l.length < fuel) :
    ∃ s2, wait_queue_wakeup_all fuel q s = Outcome.returned s2 ∧
      is_queue s2.mem q [] ∧
      s2.trace = s.trace ++ [Event.acquire q] ++
        l.map (fun t => Event.wake (Ptr.task_list t)) ++ [Event.release q] ∧
      woken s2.trace = woken s.trace ++ l.map Ptr.task_list ∧
      (l = [] → woken s2.trace = woken s.trace) := by
  obtain ⟨s2, hrun, hmem, _, _, _, htrace⟩ :=
    wait_queue_wakeup_all_returned fuel q s l hfree hq hf
  have hw : woken s2.trace = woken s.trace ++ l.map Ptr.task_list := by
    rw [htrace, woken_append, woken_append, woken_append, woken_wakes, woken_acquire,
      woken_release]
    simp
  refine ⟨s2, hrun, ?_, ?_, hw, ?_⟩
  · rw [is_queue_nil, hmem]; simp
  · rw [htrace]; simp [List.map_map, Function.comp_def]
  · intro hl; rw [hw, hl]; simp

theorem wait_queue_wakeup_all_drains_witness :
    ∃ s2, wait_queue_wakeup_all 3 0 two_waiters = Outcome.returned s2 ∧
      is_queue s2.mem 0 [] ∧
      s2.trace = two_waiters.trace ++ [Event.acquire 0] ++
        [7, 8].map (fun t => Event.wake (Ptr.task_list t)) ++ [Event.release 0] ∧
      woken s2.trace = woken two_waiters.trace ++ [7, 8].map Ptr.task_list ∧
      ([7, 8] = [] → woken s2.trace = woken two_waiters.trace) :=
  wait_queue_wakeup_all_drains 3 0 two_waiters [7, 8] rfl (by decide) (by decide)

/-! ## Runs -/

theorem run_append (fuel : Nat) (a b : List Op) (s : Kernel) :
    run fuel (a ++ b) s =
      match run fuel a s with
      | Outcome.returned s1 => run fuel b s1
      | o => o := by
  induction a generalizing s with
  | nil => simp [run]
  | cons op ops ih =>
    simp only [List.cons_append, run]
    cases hstep : step fuel op s with
    | returned s1 => simp [ih]
    | fault s1 => simp
    | spin => simp
    | out_of_fuel => simp

theorem wait_queue_wakeup_is_queue (q : Nat) (s : Kernel) (l : List Nat)
    (hfree : s.locked q = false) (hq : is_queue s.mem q l) :
    ∃ s2, wait_queue_wakeup q s = Outcome.returned s2 ∧ is_queue s2.mem q (l.drop 1) ∧
      s2.locked = s.locked ∧
      woken s2.trace = woken s.trace ++ (l.take 1).map Ptr.task_list := by
  cases l with
  | nil =>
    obtain ⟨s2, hrun, hmem, _, hlocked, _, htrace⟩ :=
      wait_queue_wakeup_empty q s hfree (is_queue_first_nil s.mem q hq)
    refine ⟨s2, hrun, by rw [hmem]; simpa using hq, hlocked, ?_⟩
    rw [htrace]; simp [woken]
  | cons h rest =>
    have hfirst := is_queue_first s.mem q h rest hq
    obtain ⟨s2, hrun, hmem, _, hlocked, _, htrace⟩ :=
      wait_queue_wakeup_first q s hfree (by rw [hfirst]; simp)
    refine ⟨s2, hrun, ?_, hlocked, ?_⟩
    · rw [hmem, hfirst]
      have := is_queue_del h hq (by simp)
      simpa using this
    · rw [htrace, hfirst]; simp [woken]

theorem run_adds (fuel q : Nat) : ∀ (ts l : List Nat) (s : Kernel),
    s.locked q = false → is_queue s.mem q l → (l ++ ts).Nodup → l.length + ts.length < fuel →
    ∃ s2, run fuel (ts.map (Op.add q)) s = Outcome.returned s2 ∧
      is_queue s2.mem q (l ++ ts) ∧ s2.locked = s.locked ∧
      woken s2.trace = woken s.trace := by
  intro ts
  induction ts with
  | nil =>
    intro l s _ hq _ _
    exact ⟨s, rfl, by simpa using hq, rfl, rfl⟩
  | cons t ts ih =>
    intro l s hfree hq hnd hf
    have ht : t ∉ l := by
      intro hc
      exact (List.nodup_append.mp hnd).2.2 hc (by simp)
    obtain ⟨s1, hrun1, hmem1, _, hlocked1, _, htrace1⟩ :=
      wait_queue_add_returned fuel q t s l hfree hq (by simp at hf; omega) ht
    have hq1 : is_queue s1.mem q (l ++ [t]) := by
      rw [hmem1]; exact is_queue_add_tail t hq ht
    obtain ⟨s2, hrun2, hq2, hlocked2, htrace2⟩ :=
      ih (l ++ [t]) s1 (by rw [hlocked1]; exact hfree) hq1 (by simpa using hnd)
        (by simp at hf ⊢; omega)
    refine ⟨s2, ?_, by simpa using hq2, by rw [hlocked2, hlocked1], ?_⟩
    · simp only [List.map_cons, run, step, hrun1]
      exact hrun2
    · rw [htrace2, htrace1]; simp [woken]

theorem run_wakeups (fuel q : Nat) : ∀ (k : Nat) (l : List Nat) (s : Kernel),
    s.locked q = false → is_queue s.mem q l →
    ∃ s2, run fuel (List.replicate k (Op.wakeup q)) s = Outcome.returned s2 ∧
      is_queue s2.mem q (l.drop k) ∧ s2.locked = s.locked ∧
      woken s2.trace = woken s.trace ++ (l.take k).map Ptr.task_list := by
  intro k
  induction k with
  | zero =>
    intro l s _ hq
    exact ⟨s, rfl, by simpa using hq, rfl, by simp⟩
  | succ k ih =>
    intro l s hfree hq
    obtain ⟨s1, hrun1, hq1, hlocked1, htrace1⟩ := wait_queue_wakeup_is_queue q s l hfree hq
    obtain ⟨s2, hrun2, hq2, hlocked2, htrace2⟩ :=
      ih (l.drop 1) s1 (by rw [hlocked1]; exact hfree) hq1
    refine ⟨s2, ?_, ?_, by rw [hlocked2, hlocked1], ?_⟩
    · simp only [List.replicate_succ, run, step, hrun1]
      exact hrun2
    · simpa [Nat.add_comm] using hq2
    · rw [htrace2, htrace1, List.append_assoc, ← List.map_append]
      congr 2
      cases l with
      | nil => simp
      | cons h rest => simp

/-- C1: after the pairwise distinct tasks `ts` have been added, in this order, to an empty
queue, `k` calls of `wait_queue_wakeup` (for every `k`) have
called `task_wakeup` on the first `k` tasks, in the order of their insertion, and the
remaining tasks are the members; after as many calls as tasks the queue is empty. -/
theorem wait_queue_fifo (fuel q : Nat) (ts : List Nat) (k : Nat) (s : Kernel)
    (hfree : s.locked q = false) (hempty : is_queue s.mem q []) (hnd : ts.Nodup)
    (hf : ts.length < fuel) :
    (∃ s2, run fuel (ts.map (Op.add q) ++ List.replicate k (Op.wakeup q)) s =
        Outcome.returned s2 ∧
      woken s2.trace = woken s.trace ++ (ts.take k).map Ptr.task_list ∧
      is_queue s2.mem q (ts.drop k)) ∧
    (∃ s3, run fuel (ts.map (Op.add q) ++ List.replicate ts.length (Op.wakeup q)) s =
        Outcome.returned s3 ∧
      woken s3.trace = woken s.trace ++ ts.map Ptr.task_list ∧
      is_queue s3.mem q []) := by
  obtain ⟨s1, hrun1, hq1, hlocked1, htrace1⟩ :=
    run_adds fuel q ts [] s hfree hempty (by simpa using hnd) (by simpa using hf)
  simp only [List.nil_append] at hq1
  have hfree1 : s1.locked q = false := by rw [hlocked1]; exact hfree
  constructor
  · obtain ⟨s2, hrun2, hq2, _, htrace2⟩ := run_wakeups fuel q k ts s1 hfree1 hq1
    refine ⟨s2, ?_, by rw [htrace2, htrace1], hq2⟩
    rw [run_append, hrun1]
    exact hrun2
  · obtain ⟨s3, hrun3, hq3, _, htrace3⟩ := run_wakeups fuel q ts.length ts s1 hfree1 hq1
    refine ⟨s3, ?_, by rw [htrace3, htrace1]; simp, by simpa using hq3⟩
    rw [run_append, hrun1]
    exact hrun3

theorem wait_queue_fifo_witness :
    (∃ s2, run 4 ([3, 1, 2].map (Op.add 0) ++ List.replicate 2 (Op.wakeup 0)) boot =
        Outcome.returned s2 ∧
      woken s2.trace = woken boot.trace ++ ([3, 1, 2].take 2).map Ptr.task_list ∧
      is_queue s2.mem 0 ([3, 1, 2].drop 2)) ∧
    (∃ s3, run 4 ([3, 1, 2].map (Op.add 0) ++ List.replicate [3, 1, 2].length (Op.wakeup 0))
        boot = Outcome.returned s3 ∧
      woken s3.trace = woken boot.trace ++ [3, 1, 2].map Ptr.task_list ∧
      is_queue s3.mem 0 []) :=
  wait_queue_fifo 4 0 [3, 1, 2] 2 boot rfl (by decide) (by decide) (by decide)

/-! ## One queue under arbitrary calls -/

theorem step_is_queue (fuel q : Nat) (op : Op) (s : Kernel) (l : List Nat)
    (hop : op.queue = q) (hfree : s.locked q = false) (hq : is_queue s.mem q l)
    (hf : l.length < fuel) :
    ∃ s2 l2, ((step fuel op s = Outcome.returned s2 ∧ s2.locked = s.locked) ∨
        step fuel op s = Outcome.fault s2) ∧
      is_queue s2.mem q l2 ∧ l2.length ≤ l.length + 1 := by
  cases op with
  | add q1 t =>
    simp only [Op.queue] at hop; subst hop
    by_cases ht : t ∈ l
    · exact ⟨_, l, Or.inr (wait_queue_add_fault fuel q1 t s l hfree hq hf ht),
        hq, by omega⟩
    · obtain ⟨s2, hrun, hmem, _, hlocked, _⟩ :=
        wait_queue_add_returned fuel q1 t s l hfree hq hf ht
      exact ⟨s2, l ++ [t], Or.inl ⟨hrun, hlocked⟩, by rw [hmem]; exact is_queue_add_tail t hq ht,
        by simp⟩
  | remove q1 t =>
    simp only [Op.queue] at hop; subst hop
    obtain ⟨s2, hrun, hmem, _, hlocked, _⟩ :=
      wait_queue_remove_returned fuel q1 t s l hfree hq hf
    by_cases ht : t ∈ l
    · refine ⟨s2, l.erase t, Or.inl ⟨hrun, hlocked⟩, ?_, ?_⟩
      · rw [hmem]; simp only [ht, if_true, list_del_init_eq]; exact is_queue_del t hq ht
      · exact Nat.le_succ_of_le (List.length_erase_le t l)
    · exact ⟨s2, l, Or.inl ⟨hrun, hlocked⟩, by rw [hmem]; simpa [ht] using hq, by omega⟩
  | wakeup q1 =>
    simp only [Op.queue] at hop; subst hop
    obtain ⟨s2, hrun, hq2, hlocked, _⟩ := wait_queue_wakeup_is_queue q1 s l hfree hq
    exact ⟨s2, l.drop 1, Or.inl ⟨hrun, hlocked⟩, hq2, by simp; omega⟩
  | wakeup_all q1 =>
    simp only [Op.queue] at hop; subst hop
    obtain ⟨s2, hrun, hmem, _, hlocked, _⟩ :=
      wait_queue_wakeup_all_returned fuel q1 s l hfree hq hf
    refine ⟨s2, [], Or.inl ⟨hrun, hlocked⟩, ?_, by simp⟩
    rw [is_queue_nil, hmem]; simp

theorem run_is_queue (fuel q : Nat) : ∀ (ops : List Op) (l : List Nat) (s : Kernel),
    (∀ op ∈ ops, op.queue = q) → s.locked q = false → is_queue s.mem q l →
    l.length + ops.length < fuel →
    ∃ s2 l2, (run fuel ops s = Outcome.returned s2 ∨ run fuel ops s = Outcome.fault s2) ∧
      is_queue s2.mem q l2 := by
  intro ops
  induction ops with
  | nil =>
    intro l s _ _ hq _
    exact ⟨s, l, Or.inl rfl, hq⟩
  | cons op ops ih =>
    intro l s hops hfree hq hf
    obtain ⟨s1, l1, hstep, hq1, hlen⟩ :=
      step_is_queue fuel q op s l (hops op (by simp)) hfree hq (by simp at hf; omega)
    rcases hstep with ⟨hstep, hlocked⟩ | hstep
    · obtain ⟨s2, l2, hrun, hq2⟩ :=
        ih l1 s1 (fun o ho => hops o (List.mem_cons_of_mem _ ho))
          (by rw [hlocked]; exact hfree) hq1 (by simp at hf; omega)
      refine ⟨s2, l2, ?_, hq2⟩
      simp only [run, hstep]
      exact hrun
    · refine ⟨s1, l1, Or.inr ?_, hq1⟩
      simp only [run, hstep]

/-- C8: starting from an empty queue, after every initial part of every finite sequence
of `wait_queue_add`, `wait_queue_remove`, `wait_queue_wakeup` and `wait_queue_wakeup_all`
calls on that queue, the run has returned or stopped at a faulting add, and the wait list
is a well-formed list whose members contain no task twice. -/
theorem wait_queue_no_duplicates (fuel q : Nat) (ops : List Op) (s : Kernel)
    (hfree : s.locked q = false) (hempty : is_queue s.mem q [])
    (hops : ∀ op ∈ ops, op.queue = q) (hf : ops.length < fuel) :
    ∀ n, ∃ s2 l, (run fuel (ops.take n) s = Outcome.returned s2 ∨
        run fuel (ops.take n) s = Outcome.fault s2) ∧
      is_queue s2.mem q l ∧ l.Nodup := by
  intro n
  obtain ⟨s2, l2, hrun, hq2⟩ :=
    run_is_queue fuel q (ops.take n) [] s (fun o ho => hops o (List.mem_of_mem_take ho))
      hfree hempty (by
        simp only [List.length_nil, List.length_take]
        omega)
  exact ⟨s2, l2, hrun, hq2, hq2.1⟩

theorem wait_queue_no_duplicates_witness :
    ∃ s2 l,
      (run 6 ([Op.add 0 7, Op.add 0 8, Op.remove 0 7, Op.add 0 7, Op.add 0 8].take 5) boot =
          Outcome.returned s2 ∨
        run 6 ([Op.add 0 7, Op.add 0 8, Op.remove 0 7, Op.add 0 7, Op.add 0 8].take 5) boot =
          Outcome.fault s2) ∧
      is_queue s2.mem 0 l ∧ l.Nodup :=
  wait_queue_no_duplicates 6 0 [Op.add 0 7, Op.add 0 8, Op.remove 0 7, Op.add 0 7, Op.add 0 8]
    boot rfl (by decide) (by decide) (by decide) 5

/-- C9: a task taken out of a queue by `wait_queue_remove`, by `wait_queue_wakeup` or by
`wait_queue_wakeup_all` has, when the call returns, a link that refers to nothing but
itself, whichever of the three calls removed it. -/
theorem removal_clears_link (fuel q t : Nat) (s : Kernel) (l : List Nat)
    (hfree : s.locked q = false) (hq : is_queue s.mem q l) (hf : l.length < fuel)
    (ht : t ∈ l) :
    (∃ s2, wait_queue_remove fuel q t s = Outcome.returned s2 ∧
      s2.mem (Ptr.task_list t) = { prev := Ptr.task_list t, next := Ptr.task_list t }) ∧
    (∀ rest, l = t :: rest → ∃ s2, wait_queue_wakeup q s = Outcome.returned s2 ∧
      s2.mem (Ptr.task_list t) = { prev := Ptr.task_list t, next := Ptr.task_list t }) ∧
    (∃ s2, wait_queue_wakeup_all fuel q s = Outcome.returned s2 ∧
      s2.mem (Ptr.task_list t) = { prev := Ptr.task_list t, next := Ptr.task_list t }) := by
  refine ⟨?_, ?_, ?_⟩
  · obtain ⟨s2, hrun, hmem, _⟩ := wait_queue_remove_returned fuel q t s l hfree hq hf
    refine ⟨s2, hrun, ?_⟩
    rw [hmem]; simp only [ht, if_true, list_del_init_eq, list_del_self]
  · intro rest hl
    subst hl
    have hfirst := is_queue_first s.mem q t rest hq
    obtain ⟨s2, hrun, hmem, _⟩ := wait_queue_wakeup_first q s hfree (by rw [hfirst]; simp)
    refine ⟨s2, hrun, ?_⟩
    rw [hmem, hfirst, list_del_self]
  · obtain ⟨s2, hrun, hmem, _⟩ := wait_queue_wakeup_all_returned fuel q s l hfree hq hf
    refine ⟨s2, hrun, ?_⟩
    rw [hmem]; simp [ht]

theorem removal_clears_link_witness :
    (∃ s2, wait_queue_remove 3 0 7 two_waiters = Outcome.returned s2 ∧
      s2.mem (Ptr.task_list 7) = { prev := Ptr.task_list 7, next := Ptr.task_list 7 }) ∧
    (∃ s2, wait_queue_wakeup 0 two_waiters = Outcome.returned s2 ∧
      s2.mem (Ptr.task_list 7) = { prev := Ptr.task_list 7, next := Ptr.task_list 7 }) ∧
    (∃ s2, wait_queue_wakeup_all 3 0 two_waiters = Outcome.returned s2 ∧
      s2.mem (Ptr.task_list 7) = { prev := Ptr.task_list 7, next := Ptr.task_list 7 }) :=
  have h := removal_clears_link 3 0 7 two_waiters [7, 8] rfl (by decide) (by decide) (by decide)
  ⟨h.1, h.2.1 [8] rfl, h.2.2⟩

theorem seg_member_prev {m : Mem} {a b x : Ptr} {l1 l2 : List Ptr}
    (h : seg m a (l1 ++ x :: l2) b) : (m x).prev ∈ a :: l1 :=
  seg_prev_mem a l1 x ((seg_append a l1 x l2 b).mp h).1

theorem seg_member_next {m : Mem} {a b x : Ptr} {l1 l2 : List Ptr}
    (h : seg m a (l1 ++ x :: l2) b) : (m x).next ∈ l2 ++ [b] :=
  seg_next_mem x l2 b ((seg_append a l1 x l2 b).mp h).2

theorem is_queue_member_prev {m : Mem} {q : Nat} {l : List Nat} {t : Nat}
    (h : is_queue m q l) (ht : t ∈ l) :
    (m (Ptr.task_list t)).prev ∈ Ptr.wait_list q :: l.map Ptr.task_list := by
  obtain ⟨l1, l2, rfl⟩ := List.append_of_mem ht
  have hs := h.2
  simp only [List.map_append, List.map_cons] at hs ⊢
  have := seg_member_prev hs
  simp only [List.mem_cons, List.mem_append] at this ⊢
  tauto

theorem is_queue_member_next {m : Mem} {q : Nat} {l : List Nat} {t : Nat}
    (h : is_queue m q l) (ht : t ∈ l) :
    (m (Ptr.task_list t)).next ∈ Ptr.wait_list q :: l.map Ptr.task_list := by
  obtain ⟨l1, l2, rfl⟩ := List.append_of_mem ht
  have hs := h.2
  simp only [List.map_append, List.map_cons] at hs ⊢
  have := seg_member_next hs
  simp only [List.mem_cons, List.mem_append, List.mem_singleton] at this ⊢
  tauto

theorem is_queue_head_prev {m : Mem} {q : Nat} {l : List Nat} (h : is_queue m q l) :
    (m (Ptr.wait_list q)).prev ∈ Ptr.wait_list q :: l.map Ptr.task_list :=
  seg_prev_mem _ _ _ h.2

theorem list_add_tail_frame_queue {m : Mem} {q : Nat} {l : List Nat} (t : Nat) (p : Ptr)
    (h : is_queue m q l) (h1 : p ≠ Ptr.task_list t) (h2 : p ∉ Ptr.wait_list q :: l.map Ptr.task_list) :
    list_add_tail (Ptr.task_list t) (Ptr.wait_list q) m p = m p := by
  apply list_add_tail_frame _ _ _ _ h1
  · intro hc; exact h2 (by simp [hc])
  · intro hc; exact h2 (hc ▸ is_queue_head_prev h)

theorem list_del_frame_queue {m : Mem} {q : Nat} {l : List Nat} (t : Nat) (p : Ptr)
    (h : is_queue m q l) (ht : t ∈ l) (h2 : p ∉ Ptr.wait_list q :: l.map Ptr.task_list) :
    list_del (Ptr.task_list t) m p = m p := by
  apply list_del_frame
  · intro hc; exact h2 (by rw [hc]; simp [ht])
  · intro hc; exact h2 (hc ▸ is_queue_member_prev h ht)
  · intro hc; exact h2 (hc ▸ is_queue_member_next h ht)

theorem queues_wf_add {m : Mem} {ms : Nat → List Nat} (q t : Nat) (h : queues_wf m ms)
    (ht : ∀ q2, t ∉ ms q2) :
    queues_wf (list_add_tail (Ptr.task_list t) (Ptr.wait_list q) m)
      (Function.update ms q (ms q ++ [t])) := by
  obtain ⟨h1, h2, h3⟩ := h
  have hframe : ∀ p, p ≠ Ptr.task_list t → p ∉ Ptr.wait_list q :: (ms q).map Ptr.task_list →
      list_add_tail (Ptr.task_list t) (Ptr.wait_list q) m p = m p :=
    fun p hp1 hp2 => list_add_tail_frame_queue t p (h1 q) hp1 hp2
  refine ⟨?_, ?_, ?_⟩
  · intro q1
    by_cases hq : q1 = q
    · subst hq; rw [Function.update_same]; exact is_queue_add_tail t (h1 q1) (ht q1)
    · rw [Function.update_noteq hq]
      refine is_queue_congr (h1 q1) (hframe _ (by simp) (by simp [hq])) ?_
      intro t1 ht1
      refine hframe _ ?_ ?_
      · intro hc; cases hc; exact ht q1 ht1
      · simp only [List.mem_cons, List.mem_map, not_or]
        refine ⟨by simp, ?_⟩
        rintro ⟨t2, ht2, hc⟩
        cases hc
        exact hq (h2 q1 q t1 ht1 ht2)
  · intro q1 q2 t1 ht1 ht2
    by_cases hq1 : q1 = q <;> by_cases hq2 : q2 = q
    · rw [hq1, hq2]
    · subst hq1
      rw [Function.update_same] at ht1
      rw [Function.update_noteq hq2] at ht2
      rcases List.mem_append.mp ht1 with hc | hc
      · exact h2 _ _ t1 hc ht2
      · simp at hc; subst hc; exact absurd ht2 (ht q2)
    · subst hq2
      rw [Function.update_same] at ht2
      rw [Function.update_noteq hq1] at ht1
      rcases List.mem_append.mp ht2 with hc | hc
      · exact h2 _ _ t1 ht1 hc
      · simp at hc; subst hc; exact absurd ht1 (ht q1)
    · rw [Function.update_noteq hq1] at ht1
      rw [Function.update_noteq hq2] at ht2
      exact h2 _ _ t1 ht1 ht2
  · intro t1 hno
    have hne : t1 ≠ t := by
      intro hc; subst hc
      exact hno q (by rw [Function.update_same]; simp)
    have hno2 : ∀ q1, t1 ∉ ms q1 := by
      intro q1 hc
      by_cases hq : q1 = q
      · subst hq; exact hno q1 (by rw [Function.update_same]; simp [hc])
      · exact hno q1 (by rw [Function.update_noteq hq]; exact hc)
    rw [hframe _ (by simpa using hne) (by simpa using hno2 q)]
    exact h3 t1 hno2

theorem queues_wf_del {m : Mem} {ms : Nat → List Nat} (q t : Nat) (h : queues_wf m ms)
    (ht : t ∈ ms q) :
    queues_wf (list_del (Ptr.task_list t) m) (Function.update ms q ((ms q).erase t)) := by
  obtain ⟨h1, h2, h3⟩ := h
  have hframe : ∀ p, p ∉ Ptr.wait_list q :: (ms q).map Ptr.task_list →
      list_del (Ptr.task_list t) m p = m p :=
    fun p hp => list_del_frame_queue t p (h1 q) ht hp
  refine ⟨?_, ?_, ?_⟩
  · intro q1
    by_cases hq : q1 = q
    · subst hq; rw [Function.update_same]; exact is_queue_del t (h1 q1) ht
    · rw [Function.update_noteq hq]
      refine is_queue_congr (h1 q1) (hframe _ (by simp [hq])) ?_
      intro t1 ht1
      refine hframe _ ?_
      simp only [List.mem_cons, List.mem_map, not_or]
      refine ⟨by simp, ?_⟩
      rintro ⟨t2, ht2, hc⟩
      cases hc
      exact hq (h2 q1 q t1 ht1 ht2)
  · intro q1 q2 t1 ht1 ht2
    have sub : ∀ q3, t1 ∈ Function.update ms q ((ms q).erase t) q3 → t1 ∈ ms q3 := by
      intro q3 hc
      by_cases hq : q3 = q
      · subst hq; rw [Function.update_same] at hc; exact List.mem_of_mem_erase hc
      · rw [Function.update_noteq hq] at hc; exact hc
    exact h2 q1 q2 t1 (sub q1 ht1) (sub q2 ht2)
  · intro t1 hno
    by_cases hne : t1 = t
    · subst hne; exact list_del_self _ _
    · have hno2 : ∀ q1, t1 ∉ ms q1 := by
        intro q1 hc
        by_cases hq : q1 = q
        · subst hq
          exact hno q1 (by
            rw [Function.update_same]
            exact (List.mem_erase_of_ne hne).mpr hc)
        · exact hno q1 (by rw [Function.update_noteq hq]; exact hc)
      rw [hframe _ (by simpa using hno2 q)]
      exact h3 t1 hno2

theorem queues_wf_drain {m : Mem} {ms : Nat → List Nat} (q : Nat) (h : queues_wf m ms) :
    queues_wf (fun z => if z ∈ Ptr.wait_list q :: (ms q).map Ptr.task_list
                        then { prev := z, next := z } else m z)
      (Function.update ms q []) := by
  obtain ⟨h1, h2, h3⟩ := h
  refine ⟨?_, ?_, ?_⟩
  · intro q1
    by_cases hq : q1 = q
    · subst hq; rw [Function.update_same, is_queue_nil]; simp
    · rw [Function.update_noteq hq]
      refine is_queue_congr (h1 q1) (by simp [hq]) ?_
      intro t1 ht1
      have : t1 ∉ ms q := fun hc => hq (h2 q1 q t1 ht1 hc)
      simp [this]
  · intro q1 q2 t1 ht1 ht2
    have sub : ∀ q3, t1 ∈ Function.update ms q [] q3 → t1 ∈ ms q3 := by
      intro q3 hc
      by_cases hq : q3 = q
      · subst hq; rw [Function.update_same] at hc; simp at hc
      · rw [Function.update_noteq hq] at hc; exact hc
    exact h2 q1 q2 t1 (sub q1 ht1) (sub q2 ht2)
  · intro t1 hno
    by_cases hmem : t1 ∈ ms q
    · simp [hmem]
    · have hno2 : ∀ q1, t1 ∉ ms q1 := by
        intro q1 hc
        by_cases hq : q1 = q
        · subst hq; exact hmem hc
        · exact hno q1 (by rw [Function.update_noteq hq]; exact hc)
      simp only [List.mem_cons, List.mem_map, Ptr.task_list.injEq, exists_eq_right, hmem,
        or_false, reduceCtorEq, if_false]
      exact h3 t1 hno2

theorem update_length_le (ms : Nat → List Nat) (q : Nat) (l : List Nat)
    (h : l.length ≤ (ms q).length + 1) (q1 : Nat) :
    (Function.update ms q l q1).length ≤ (ms q1).length + 1 := by
  by_cases hq : q1 = q
  · subst hq; rw [Function.update_same]; exact h
  · rw [Function.update_noteq hq]; omega

theorem add_ok_of_wf {m : Mem} {ms : Nat → List Nat} (q t : Nat) (h : queues_wf m ms)
    (ht : ∀ q2, q2 ≠ q → t ∉ ms q2) : add_ok (Op.add q t) m := by
  intro q2 l hq2 hl
  rw [is_queue_unique hl (h.1 q2)]
  exact ht q2 hq2

theorem step_queues_wf (fuel : Nat) (op : Op) (s : Kernel) (ms : Nat → List Nat)
    (hfree : ∀ q, s.locked q = false) (hwf : queues_wf s.mem ms)
    (hf : ∀ q, (ms q).length < fuel) (hok : add_ok op s.mem) :
    ∃ s2 ms2, ((step fuel op s = Outcome.returned s2 ∧ s2.locked = s.locked) ∨
        step fuel op s = Outcome.fault s2) ∧
      queues_wf s2.mem ms2 ∧ ∀ q, (ms2 q).length ≤ (ms q).length + 1 := by
  cases op with
  | add q t =>
    by_cases ht : t ∈ ms q
    · exact ⟨_, ms,
        Or.inr (wait_queue_add_fault fuel q t s (ms q) (hfree q) (hwf.1 q) (hf q) ht),
        hwf, fun _ => by omega⟩
    · obtain ⟨s2, hrun, hmem, _, hlocked, _⟩ :=
        wait_queue_add_returned fuel q t s (ms q) (hfree q) (hwf.1 q) (hf q) ht
      have hno : ∀ q2, t ∉ ms q2 := by
        intro q2
        by_cases hq : q2 = q
        · subst hq; exact ht
        · exact hok q2 (ms q2) hq (hwf.1 q2)
      refine ⟨s2, Function.update ms q (ms q ++ [t]), Or.inl ⟨hrun, hlocked⟩, ?_, ?_⟩
      · rw [hmem]; exact queues_wf_add q t hwf hno
      · exact update_length_le ms q _ (by simp)
  | remove q t =>
    obtain ⟨s2, hrun, hmem, _, hlocked, _⟩ :=
      wait_queue_remove_returned fuel q t s (ms q) (hfree q) (hwf.1 q) (hf q)
    by_cases ht : t ∈ ms q
    · refine ⟨s2, Function.update ms q ((ms q).erase t), Or.inl ⟨hrun, hlocked⟩, ?_, ?_⟩
      · rw [hmem]; simp only [ht, if_true, list_del_init_eq]; exact queues_wf_del q t hwf ht
      · exact update_length_le ms q _ (Nat.le_succ_of_le (List.length_erase_le t _))
    · exact ⟨s2, ms, Or.inl ⟨hrun, hlocked⟩, by rw [hmem]; simpa [ht] using hwf,
        fun _ => by omega⟩
  | wakeup q =>
    cases hl : ms q with
    | nil =>
      have hq := hwf.1 q
      rw [hl] at hq
      obtain ⟨s2, hrun, hmem, _, hlocked, _⟩ :=
        wait_queue_wakeup_empty q s (hfree q) (is_queue_first_nil s.mem q hq)
      exact ⟨s2, ms, Or.inl ⟨hrun, hlocked⟩, by rw [hmem]; exact hwf, fun _ => by omega⟩
    | cons h rest =>
      have hq := hwf.1 q
      rw [hl] at hq
      have hfirst := is_queue_first s.mem q h rest hq
      obtain ⟨s2, hrun, hmem, _, hlocked, _⟩ :=
        wait_queue_wakeup_first q s (hfree q) (by rw [hfirst]; simp)
      refine ⟨s2, Function.update ms q ((ms q).erase h), Or.inl ⟨hrun, hlocked⟩, ?_, ?_⟩
      · rw [hmem, hfirst]; exact queues_wf_del q h hwf (by rw [hl]; simp)
      · exact update_length_le ms q _ (Nat.le_succ_of_le (List.length_erase_le h _))
  | wakeup_all q =>
    obtain ⟨s2, hrun, hmem, _, hlocked, _⟩ :=
      wait_queue_wakeup_all_returned fuel q s (ms q) (hfree q) (hwf.1 q) (hf q)
    refine ⟨s2, Function.update ms q [], Or.inl ⟨hrun, hlocked⟩, ?_, ?_⟩
    · rw [hmem]; exact queues_wf_drain q hwf
    · exact update_length_le ms q _ (by simp)

theorem run_queues_wf (fuel : Nat) : ∀ (ops : List Op) (s : Kernel) (ms : Nat → List Nat),
    (∀ q, s.locked q = false) → queues_wf s.mem ms →
    (∀ q, (ms q).length + ops.length < fuel) → disciplined fuel ops s →
    ∃ s2 ms2, (run fuel ops s = Outcome.returned s2 ∨ run fuel ops s = Outcome.fault s2) ∧
      queues_wf s2.mem ms2 := by
  intro ops
  induction ops with
  | nil =>
    intro s ms _ hwf _ _
    exact ⟨s, ms, Or.inl rfl, hwf⟩
  | cons op ops ih =>
    intro s ms hfree hwf hf hd
    obtain ⟨s1, ms1, hstep, hwf1, hlen⟩ :=
      step_queues_wf fuel op s ms hfree hwf
        (fun q => by have := hf q; simp at this; omega) hd.1
    rcases hstep with ⟨hstep, hlocked⟩ | hstep
    · have hd1 : disciplined fuel ops s1 := by
        have := hd.2
        rw [hstep] at this
        exact this
      obtain ⟨s2, ms2, hrun, hwf2⟩ :=
        ih s1 ms1 (by rw [hlocked]; exact hfree) hwf1
          (fun q => by have := hf q; have := hlen q; simp at *; omega) hd1
      refine ⟨s2, ms2, ?_, hwf2⟩
      simp only [run, hstep]
      exact hrun
    · refine ⟨s1, ms1, Or.inr ?_, hwf1⟩
      simp only [run, hstep]

theorem disciplined_take (fuel : Nat) : ∀ (ops : List Op) (n : Nat) (s : Kernel),
    disciplined fuel ops s → disciplined fuel (ops.take n) s := by
  intro ops
  induction ops with
  | nil => intro n s _; simp [disciplined]
  | cons op ops ih =>
    intro n s hd
    cases n with
    | zero => simp [disciplined]
    | succ n =>
      simp only [List.take_succ_cons, disciplined] at hd ⊢
      refine ⟨hd.1, ?_⟩
      cases hstep : step fuel op s with
      | returned s1 =>
        have := hd.2
        rw [hstep] at this
        exact ih n s1 this
      | fault s1 => trivial
      | spin => trivial
      | out_of_fuel => trivial

theorem boot_queues_wf : queues_wf boot.mem (fun _ => []) := by
  refine ⟨fun q => ?_, ?_, ?_⟩
  · rw [is_queue_nil]; rfl
  · intro q1 q2 t h; simp at h
  · intro t _; rfl

theorem list_find_loop_cycle (m : Mem) (t h a b : Ptr) (hab : (m a).next = b)
    (hba : (m b).next = a) (ha : a ≠ h) (hb : b ≠ h) (hat : a ≠ t) (hbt : b ≠ t) :
    ∀ fuel, list_find_loop m t h fuel a = none ∧ list_find_loop m t h fuel b = none := by
  intro fuel
  induction fuel with
  | zero => exact ⟨rfl, rfl⟩
  | succ f ih =>
    simp only [list_find_loop, ha, hb, hat, hbt, if_false, hab, hba]
    exact ⟨ih.2, ih.1⟩

/-- C10 (as stated, refuted): on the boot state, adding task 7 to queue 0 and then to
queue 1 makes both calls return; afterwards task 7 is the first node after the head of
both queues, queue 1 is the well-formed list [7], the wait list of queue 0 is not a
well-formed list of any members, and a `list_find` walk over queue 0 never comes back
to its head. -/
theorem add_to_second_queue_corrupts :
    ∃ s2, run 2 [Op.add 0 7, Op.add 1 7] boot = Outcome.returned s2 ∧
      (s2.mem (Ptr.wait_list 0)).next = Ptr.task_list 7 ∧
      (s2.mem (Ptr.wait_list 1)).next = Ptr.task_list 7 ∧
      is_queue s2.mem 1 [7] ∧
      (¬ ∃ l, is_queue s2.mem 0 l) ∧
      ∀ fuel, list_find fuel (Ptr.task_list 9) (Ptr.wait_list 0) s2.mem = none := by
  refine ⟨_, rfl, by decide, by decide, by decide, ?_, ?_⟩
  · rintro ⟨l, hl⟩
    cases l with
    | nil =>
      have := is_queue_first_nil _ 0 hl
      revert this
      decide
    | cons t rest =>
      have h1 := is_queue_first _ 0 t rest hl
      have h2 := hl.2
      simp only [List.map_cons, seg, link] at h2
      have h3 := h2.1.2
      rw [← h1] at h3
      revert h3
      decide
  · intro fuel
    exact (list_find_loop_cycle _ (Ptr.task_list 9) (Ptr.wait_list 0) (Ptr.task_list 7)
      (Ptr.wait_list 1) (by decide) (by decide) (by decide) (by decide) (by decide)
      (by decide) fuel).1

/-- C10 (amended): from a state in which every wait queue is well formed, no task is in
two queues and every task in no queue is unlinked, after every initial part of every
finite sequence of calls, over any number of queues, in which no `wait_queue_add` is
applied to a task that is at that time a member of a different queue, the same holds
again: each task is unlinked or a member of exactly one well-formed queue. -/
theorem one_queue_per_task (fuel : Nat) (ops : List Op) (s : Kernel) (ms : Nat → List Nat)
    (hfree : ∀ q, s.locked q = false) (hwf : queues_wf s.mem ms)
    (hf : ∀ q, (ms q).length + ops.length < fuel) (hok : disciplined fuel ops s) :
    ∀ n, ∃ s2 ms2, (run fuel (ops.take n) s = Outcome.returned s2 ∨
        run fuel (ops.take n) s = Outcome.fault s2) ∧
      queues_wf s2.mem ms2 := by
  intro n
  exact run_queues_wf fuel (ops.take n) s ms hfree hwf
    (fun q => by have := hf q; simp only [List.length_take]; omega)
    (disciplined_take fuel ops n s hok)

theorem add_twice_disciplined :
    disciplined 4 [Op.add 0 7, Op.add 1 8, Op.add 0 7] boot := by
  have hwf1 : queues_wf (list_add_tail (Ptr.task_list 7) (Ptr.wait_list 0) boot.mem)
      (Function.update (fun _ => []) 0 ([] ++ [7])) :=
    queues_wf_add 0 7 boot_queues_wf (by simp)
  have hwf2 := queues_wf_add 1 8 hwf1 (by
    intro q2
    by_cases hq : q2 = 0
    · subst hq; simp
    · simp [Function.update_noteq hq])
  refine ⟨add_ok_of_wf 0 7 boot_queues_wf (by simp), ?_⟩
  show disciplined 4 [Op.add 1 8, Op.add 0 7] _
  refine ⟨add_ok_of_wf 1 8 hwf1 (by
    intro q2 _
    by_cases hq : q2 = 0
    · subst hq; simp
    · simp [Function.update_noteq hq]), ?_⟩
  show disciplined 4 [Op.add 0 7] _
  refine ⟨add_ok_of_wf 0 7 hwf2 (by
    intro q2 hq2
    by_cases hq : q2 = 1
    · subst hq; simp
    · simp [Function.update_noteq hq, Function.update_noteq hq2]), ?_⟩
  show True
  trivial

theorem one_queue_per_task_witness :
    ∃ s2 ms2,
      (run 4 ([Op.add 0 7, Op.add 1 8, Op.add 0 7].take 3) boot = Outcome.returned s2 ∨
        run 4 ([Op.add 0 7, Op.add 1 8, Op.add 0 7].take 3) boot = Outcome.fault s2) ∧
      queues_wf s2.mem ms2 :=
  one_queue_per_task 4 [Op.add 0 7, Op.add 1 8, Op.add 0 7] boot (fun _ => [])
    (fun _ => rfl) boot_queues_wf (fun _ => by simp) add_twice_disciplined 3

/-! ## Calls and runs in terms of the members -/

theorem woken_state_nil (st : Ptr → task_state) : woken_state [] st = st := by
  funext z; simp [woken_state]

theorem step_members (fuel q : Nat) (op : Op) (s : Kernel) (l : List Nat)
    (hop : op.queue = q) (hfree : s.locked q = false) (hq : is_queue s.mem q l)
    (hf : l.length < fuel) :
    match members_step op l with
    | none =>
      ∃ s2, step fuel op s = Outcome.fault s2 ∧ s2.mem = s.mem ∧ s2.state = s.state ∧
        s2.trace = s.trace ++ [Event.acquire q]
    | some (l2, w) =>
      ∃ s2, step fuel op s = Outcome.returned s2 ∧ is_queue s2.mem q l2 ∧
        s2.locked = s.locked ∧ s2.irq = s.irq ∧
        s2.state = woken_state (w.map Ptr.task_list) s.state ∧
        s2.trace = s.trace ++ [Event.acquire q] ++ (w.map Ptr.task_list).map Event.wake ++
          [Event.release q] := by
  cases op with
  | add q1 t =>
    simp only [Op.queue] at hop; subst hop
    by_cases ht : t ∈ l
    · simp only [members_step, ht, if_true]
      exact ⟨_, wait_queue_add_fault fuel q1 t s l hfree hq hf ht, rfl, rfl, rfl⟩
    · simp only [members_step, ht, if_false]
      obtain ⟨s2, hrun, hmem, hstate, hlocked, hirq, htrace⟩ :=
        wait_queue_add_returned fuel q1 t s l hfree hq hf ht
      refine ⟨s2, hrun, by rw [hmem]; exact is_queue_add_tail t hq ht, hlocked, hirq, ?_, ?_⟩
      · rw [hstate]; simp [woken_state_nil]
      · rw [htrace]; simp
  | remove q1 t =>
    simp only [Op.queue] at hop; subst hop
    simp only [members_step]
    obtain ⟨s2, hrun, hmem, hstate, hlocked, hirq, htrace⟩ :=
      wait_queue_remove_returned fuel q1 t s l hfree hq hf
    refine ⟨s2, hrun, ?_, hlocked, hirq, ?_, ?_⟩
    · rw [hmem]
      by_cases ht : t ∈ l
      · simp only [ht, if_true, list_del_init_eq]; exact is_queue_del t hq ht
      · simp only [ht, if_false]; rw [List.erase_of_not_mem ht]; exact hq
    · rw [hstate]; simp [woken_state_nil]
    · rw [htrace]; simp
  | wakeup q1 =>
    simp only [Op.queue] at hop; subst hop
    simp only [members_step]
    cases l with
    | nil =>
      obtain ⟨s2, hrun, hmem, hstate, hlocked, hirq, htrace⟩ :=
        wait_queue_wakeup_empty q1 s hfree (is_queue_first_nil s.mem q1 hq)
      refine ⟨s2, hrun, by rw [hmem]; simpa using hq, hlocked, hirq, ?_, ?_⟩
      · rw [hstate]; simp [woken_state_nil]
      · rw [htrace]; simp
    | cons h rest =>
      have hfirst := is_queue_first s.mem q1 h rest hq
      obtain ⟨s2, hrun, hmem, hstate, hlocked, hirq, htrace⟩ :=
        wait_queue_wakeup_first q1 s hfree (by rw [hfirst]; simp)
      refine ⟨s2, hrun, ?_, hlocked, hirq, ?_, ?_⟩
      · rw [hmem, hfirst]
        have := is_queue_del h hq (by simp)
        simpa using this
      · rw [hstate, hfirst]
        funext z
        by_cases hz : z = Ptr.task_list h
        · subst hz; simp [task_wakeup, woken_state]
        · simp [task_wakeup, woken_state, hz]
      · rw [htrace, hfirst]; simp
  | wakeup_all q1 =>
    simp only [Op.queue] at hop; subst hop
    simp only [members_step]
    obtain ⟨s2, hrun, hmem, hstate, hlocked, hirq, htrace⟩ :=
      wait_queue_wakeup_all_returned fuel q1 s l hfree hq hf
    refine ⟨s2, hrun, ?_, hlocked, hirq, ?_, htrace⟩
    · rw [is_queue_nil, hmem]; simp
    · rw [hstate]; rfl

theorem members_step_length (op : Op) (l l2 w : List Nat)
    (h : members_step op l = some (l2, w)) : l2.length ≤ l.length + 1 := by
  cases op with
  | add q t =>
    simp only [members_step] at h
    split at h
    · cases h
    · cases h; simp
  | remove q t =>
    simp only [members_step] at h
    cases h
    exact Nat.le_succ_of_le (List.length_erase_le t l)
  | wakeup q =>
    simp only [members_step] at h
    cases h
    simp; omega
  | wakeup_all q =>
    simp only [members_step] at h
    cases h
    simp

theorem run_members (fuel q : Nat) : ∀ (ops : List Op) (l : List Nat) (s : Kernel),
    (∀ op ∈ ops, op.queue = q) → s.locked q = false → is_queue s.mem q l →
    l.length + ops.length < fuel →
    ∃ s2, (run fuel ops s = Outcome.returned s2 ∨ run fuel ops s = Outcome.fault s2) ∧
      is_queue s2.mem q (members_run ops l).1 ∧
      woken s2.trace = woken s.trace ++ (members_run ops l).2.map Ptr.task_list := by
  intro ops
  induction ops with
  | nil =>
    intro l s _ _ hq _
    exact ⟨s, Or.inl rfl, hq, by simp [members_run]⟩
  | cons op ops ih =>
    intro l s hops hfree hq hf
    have hstep := step_members fuel q op s l (hops op (by simp)) hfree hq
      (by simp at hf; omega)
    cases hm : members_step op l with
    | none =>
      rw [hm] at hstep
      obtain ⟨sf, hstep, hmemf, _, htracef⟩ := hstep
      refine ⟨sf, Or.inr ?_, ?_, ?_⟩
      · simp only [run, hstep]
      · rw [hmemf]; simpa [members_run, hm] using hq
      · simp [members_run, hm, htracef, woken_append, woken_acquire]
    | some r =>
      obtain ⟨l2, w⟩ := r
      rw [hm] at hstep
      obtain ⟨s1, hrun1, hq1, hlocked1, _, _, htrace1⟩ := hstep
      have hlen := members_step_length op l l2 w hm
      obtain ⟨s2, hrun2, hq2, htrace2⟩ :=
        ih l2 s1 (fun o ho => hops o (List.mem_cons_of_mem _ ho))
          (by rw [hlocked1]; exact hfree) hq1 (by simp at hf; omega)
      refine ⟨s2, ?_, ?_, ?_⟩
      · simp only [run, hrun1]; exact hrun2
      · simpa [members_run, hm] using hq2
      · rw [htrace2, htrace1, woken_append, woken_append, woken_append, woken_wakes,
          woken_acquire, woken_release]
        simp [members_run, hm]

theorem members_run_keeps (t : Nat) : ∀ (ops : List Op) (l : List Nat),
    t ∈ l → (∀ q, Op.remove q t ∉ ops) → t ∉ (members_run ops l).2 →
    t ∈ (members_run ops l).1 := by
  intro ops
  induction ops with
  | nil => intro l ht _ _; simpa [members_run] using ht
  | cons op ops ih =>
    intro l ht hrm hw
    have hrm2 : ∀ q, Op.remove q t ∉ ops := fun q hc => hrm q (List.mem_cons_of_mem _ hc)
    cases hm : members_step op l with
    | none => simpa [members_run, hm] using ht
    | some r =>
      obtain ⟨l2, w⟩ := r
      simp only [members_run, hm, List.mem_append, not_or] at hw ⊢
      refine ih l2 ?_ hrm2 hw.2
      cases op with
      | add q t1 =>
        simp only [members_step] at hm
        split at hm
        · cases hm
        · cases hm; simp [ht]
      | remove q t1 =>
        simp only [members_step] at hm
        cases hm
        have hne : t ≠ t1 := by
          intro hc; subst hc
          exact hrm q (by simp)
        exact (List.mem_erase_of_ne hne).mpr ht
      | wakeup q =>
        simp only [members_step] at hm
        cases hm
        have : t ∈ l.take 1 ++ l.drop 1 := by rw [List.take_append_drop]; exact ht
        rcases List.mem_append.mp this with h1 | h1
        · exact absurd h1 hw.1
        · exact h1
      | wakeup_all q =>
        simp only [members_step] at hm
        cases hm
        exact absurd ht hw.1

theorem members_run_absent (t : Nat) : ∀ (ops : List Op) (l : List Nat),
    t ∉ l → (∀ q, Op.add q t ∉ ops) →
    t ∉ (members_run ops l).1 ∧ t ∉ (members_run ops l).2 := by
  intro ops
  induction ops with
  | nil => intro l ht _; simpa [members_run] using ht
  | cons op ops ih =>
    intro l ht hadd
    have hadd2 : ∀ q, Op.add q t ∉ ops := fun q hc => hadd q (List.mem_cons_of_mem _ hc)
    cases hm : members_step op l with
    | none => simpa [members_run, hm] using ht
    | some r =>
      obtain ⟨l2, w⟩ := r
      simp only [members_run, hm, List.mem_append, not_or]
      have key : t ∉ l2 ∧ t ∉ w := by
        cases op with
        | add q t1 =>
          simp only [members_step] at hm
          split at hm
          · cases hm
          · cases hm
            have hne : t ≠ t1 := by
              intro hc; subst hc
              exact hadd q (by simp)
            simp [ht, hne]
        | remove q t1 =>
          simp only [members_step] at hm
          cases hm
          exact ⟨fun hc => ht (List.mem_of_mem_erase hc), by simp⟩
        | wakeup q =>
          simp only [members_step] at hm
          cases hm
          exact ⟨fun hc => ht (List.mem_of_mem_drop hc), fun hc => ht (List.mem_of_mem_take hc)⟩
        | wakeup_all q =>
          simp only [members_step] at hm
          cases hm
          exact ⟨by simp, ht⟩
      have := ih l2 key.1 hadd2
      exact ⟨this.1, key.2, this.2⟩

/-- C11: when task `t` has been added to a queue, after every run of further calls on
that queue none of which is `wait_queue_remove` of `t`, the run has returned or stopped
at a faulting add, and `t` is still a member unless `task_wakeup` was called on `t`
during the run. -/
theorem no_lost_task (fuel q t : Nat) (ops : List Op) (s : Kernel) (l : List Nat)
    (hfree : s.locked q = false) (hq : is_queue s.mem q l) (ht : t ∉ l)
    (hops : ∀ op ∈ ops, op.queue = q) (hrm : Op.remove q t ∉ ops)
    (hf : l.length + ops.length + 1 < fuel) :
    ∃ s2 l2 w, (run fuel (Op.add q t :: ops) s = Outcome.returned s2 ∨
        run fuel (Op.add q t :: ops) s = Outcome.fault s2) ∧
      is_queue s2.mem q l2 ∧ woken s2.trace = woken s.trace ++ w ∧
      (Ptr.task_list t ∉ w → t ∈ l2) := by
  obtain ⟨s2, hrun, hq2, htrace⟩ :=
    run_members fuel q (Op.add q t :: ops) l s
      (by intro o ho
          rcases List.mem_cons.mp ho with h1 | h1
          · rw [h1]; rfl
          · exact hops o h1)
      hfree hq (by simp; omega)
  refine ⟨s2, _, _, hrun, hq2, htrace, ?_⟩
  intro hw
  have hw2 : t ∉ (members_run (Op.add q t :: ops) l).2 := by
    intro hc; exact hw (by simp [hc])
  simp only [members_run, members_step, ht, if_false, List.nil_append] at hw2 ⊢
  refine members_run_keeps t ops (l ++ [t]) (by simp) ?_ hw2
  intro q2 hc
  have := hops _ hc
  simp only [Op.queue] at this
  subst this
  exact hrm hc

theorem no_lost_task_witness :
    ∃ s2 l2 w, (run 7 (Op.add 0 9 :: [Op.add 0 5, Op.wakeup 0, Op.remove 0 5]) two_waiters =
          Outcome.returned s2 ∨
        run 7 (Op.add 0 9 :: [Op.add 0 5, Op.wakeup 0, Op.remove 0 5]) two_waiters =
          Outcome.fault s2) ∧
      is_queue s2.mem 0 l2 ∧ woken s2.trace = woken two_waiters.trace ++ w ∧
      (Ptr.task_list 9 ∉ w → 9 ∈ l2) :=
  no_lost_task 7 0 9 [Op.add 0 5, Op.wakeup 0, Op.remove 0 5] two_waiters [7, 8] rfl
    (by decide) (by decide) (by decide) (by decide) (by decide)

/-- C12: after `wait_queue_remove` of task `t`, no run of further calls on that queue
without a `wait_queue_add` of `t` calls `task_wakeup` on `t`; and adding `T1` then `T2`
to an empty queue, removing `T2` and calling `wait_queue_wakeup` wakes exactly `T1` and
leaves the queue empty. -/
theorem cancelled_task_not_woken (fuel q : Nat) :
    (∀ (t : Nat) (ops : List Op) (s : Kernel) (l : List Nat),
      s.locked q = false → is_queue s.mem q l → (∀ op ∈ ops, op.queue = q) →
      Op.add q t ∉ ops → l.length + ops.length < fuel →
      ∃ s1 s2 w, wait_queue_remove fuel q t s = Outcome.returned s1 ∧
        (run fuel ops s1 = Outcome.returned s2 ∨ run fuel ops s1 = Outcome.fault s2) ∧
        woken s2.trace = woken s.trace ++ w ∧ Ptr.task_list t ∉ w) ∧
    (∀ (T1 T2 : Nat) (s : Kernel), T1 ≠ T2 → s.locked q = false → is_queue s.mem q [] →
      4 < fuel →
      ∃ s2, run fuel [Op.add q T1, Op.add q T2, Op.remove q T2, Op.wakeup q] s =
          Outcome.returned s2 ∧
        woken s2.trace = woken s.trace ++ [Ptr.task_list T1] ∧ is_queue s2.mem q []) := by
  constructor
  · intro t ops s l hfree hq hops hadd hf
    have hstep := step_members fuel q (Op.remove q t) s l rfl hfree hq (by omega)
    simp only [members_step] at hstep
    obtain ⟨s1, hrun1, hq1, hlocked1, _, _, htrace1⟩ := hstep
    obtain ⟨s2, hrun2, _, htrace2⟩ :=
      run_members fuel q ops (l.erase t) s1 hops (by rw [hlocked1]; exact hfree) hq1
        (by have := List.length_erase_le t l; omega)
    have hnot : t ∉ l.erase t := fun hc => ((List.Nodup.mem_erase_iff hq.1).mp hc).1 rfl
    have habs := members_run_absent t ops (l.erase t) hnot (by
      intro q2 hc
      have := hops _ hc
      simp only [Op.queue] at this
      subst this
      exact hadd hc)
    refine ⟨s1, s2, (members_run ops (l.erase t)).2.map Ptr.task_list, hrun1, hrun2, ?_, ?_⟩
    · rw [htrace2]
      simp only [step] at hrun1
      rw [htrace1, woken_append, woken_append, woken_append, woken_acquire, woken_release]
      simp [woken]
    · simpa using habs.2
  · intro T1 T2 s hne hfree hq hf
    obtain ⟨s2, hrun, hq2, htrace⟩ :=
      run_members fuel q [Op.add q T1, Op.add q T2, Op.remove q T2, Op.wakeup q] [] s
        (by intro o ho; simp at ho; rcases ho with h | h | h | h <;> rw [h] <;> rfl)
        hfree hq (by simpa using hf)
    have hne2 : T2 ≠ T1 := fun hc => hne hc.symm
    have hm : members_run [Op.add q T1, Op.add q T2, Op.remove q T2, Op.wakeup q] [] =
        ([], [T1]) := by
      simp [members_run, members_step, hne, hne2]
    rw [hm] at hq2 htrace
    rcases hrun with hrun | hrun
    · exact ⟨s2, hrun, by simpa using htrace, hq2⟩
    · exfalso
      simp only [run, step] at hrun
      obtain ⟨a1, h1, hmem1, _, hl1, _⟩ :=
        wait_queue_add_returned fuel q T1 s [] hfree hq (by simp; omega) (by simp)
      have hqa : is_queue a1.mem q [T1] := by
        rw [hmem1]; exact is_queue_add_tail T1 hq (by simp)
      obtain ⟨a2, h2, hmem2, _, hl2, _⟩ :=
        wait_queue_add_returned fuel q T2 a1 [T1] (by rw [hl1]; exact hfree) hqa
          (by simp; omega) (by simpa using hne2)
      have hqb : is_queue a2.mem q ([T1] ++ [T2]) := by
        rw [hmem2]; exact is_queue_add_tail T2 hqa (by simpa using hne2)
      obtain ⟨a3, h3, hmem3, _, hl3, _⟩ :=
        wait_queue_remove_returned fuel q T2 a2 ([T1] ++ [T2])
          (by rw [hl2, hl1]; exact hfree) hqb (by simp; omega)
      have hqc : is_queue a3.mem q (([T1] ++ [T2]).erase T2) := by
        rw [hmem3]; simp only [List.mem_append, List.mem_singleton, or_true, if_true,
          list_del_init_eq]
        exact is_queue_del T2 hqb (by simp)
      obtain ⟨a4, h4, _⟩ := wait_queue_wakeup_is_queue q a3 _
        (by rw [hl3, hl2, hl1]; exact hfree) hqc
      rw [h1] at hrun
      simp only [h2, h3, h4] at hrun
      cases hrun

theorem cancelled_task_not_woken_witness :
    (∃ s1 s2 w, wait_queue_remove 5 0 8 two_waiters = Outcome.returned s1 ∧
        (run 5 [Op.wakeup 0, Op.wakeup_all 0] s1 = Outcome.returned s2 ∨
          run 5 [Op.wakeup 0, Op.wakeup_all 0] s1 = Outcome.fault s2) ∧
        woken s2.trace = woken two_waiters.trace ++ w ∧ Ptr.task_list 8 ∉ w) ∧
    (∃ s2, run 5 [Op.add 0 1, Op.add 0 2, Op.remove 0 2, Op.wakeup 0] boot =
        Outcome.returned s2 ∧
      woken s2.trace = woken boot.trace ++ [Ptr.task_list 1] ∧ is_queue s2.mem 0 []) :=
  have h := cancelled_task_not_woken 5 0
  ⟨h.1 8 [Op.wakeup 0, Op.wakeup_all 0] two_waiters [7, 8] rfl (by decide) (by decide)
      (by decide) (by decide),
   h.2 1 2 boot (by decide) rfl (by decide) (by decide)⟩

/-! ## Frame of the enqueue -/

theorem seg_diverge {m : Mem} (h1 h2 : Ptr) (hne : h1 ≠ h2) : ∀ (b b2 : List Ptr) (x : Ptr),
    seg m x b h1 → seg m x b2 h2 → h1 ∉ b2 → h2 ∉ b → False := by
  intro b
  induction b with
  | nil =>
    intro b2 x hs hs2 hb2 _
    cases b2 with
    | nil =>
      simp only [seg, link] at hs hs2
      exact hne (hs.1.symm.trans hs2.1)
    | cons y ys =>
      simp only [seg, link] at hs hs2
      exact hb2 (by rw [← hs.1, hs2.1.1]; simp)
  | cons y ys ih =>
    intro b2 x hs hs2 hb2 hb
    cases b2 with
    | nil =>
      simp only [seg, link] at hs hs2
      exact hb (by rw [← hs2.1, hs.1.1]; simp)
    | cons y2 ys2 =>
      simp only [seg, link] at hs hs2
      have hy : y = y2 := hs.1.1.symm.trans hs2.1.1
      subst hy
      exact ih ys2 y hs.2 hs2.2 (fun hc => hb2 (List.mem_cons_of_mem _ hc))
        (fun hc => hb (List.mem_cons_of_mem _ hc))

theorem is_queue_disjoint {m : Mem} {q q2 : Nat} {l l2 : List Nat} (hne : q ≠ q2)
    (h : is_queue m q l) (h2 : is_queue m q2 l2) (x : Nat) (hx : x ∈ l) : x ∉ l2 := by
  intro hx2
  obtain ⟨a, b, rfl⟩ := List.append_of_mem hx
  obtain ⟨a2, b2, rfl⟩ := List.append_of_mem hx2
  have hs := h.2
  have hs2 := h2.2
  simp only [List.map_append, List.map_cons] at hs hs2
  have k1 := ((seg_append _ _ _ _ _).mp hs).2
  have k2 := ((seg_append _ _ _ _ _).mp hs2).2
  exact seg_diverge (Ptr.wait_list q) (Ptr.wait_list q2) (by simpa using hne) _ _ _ k1 k2
    (head_not_mem_map q b2) (head_not_mem_map q2 b)

/-- C13 (as stated, refuted): in a state where queue 0 has the members 7 and 8,
`wait_queue_add` of task 7 to queue 1 returns, and afterwards the wait list of queue 0
is not a well-formed list of any members: the members of another queue have changed. -/
theorem add_changes_other_queue :
    is_queue two_waiters.mem 0 [7, 8] ∧
    ∃ s2, wait_queue_add 3 1 7 two_waiters = Outcome.returned s2 ∧
      is_queue s2.mem 1 [7] ∧ ¬ ∃ l, is_queue s2.mem 0 l := by
  refine ⟨by decide, _, rfl, by decide, ?_⟩
  rintro ⟨l, hl⟩
  cases l with
  | nil =>
    have := is_queue_first_nil _ 0 hl
    revert this
    decide
  | cons t rest =>
    have h1 := is_queue_first _ 0 t rest hl
    have h2 := hl.2
    simp only [List.map_cons, seg, link] at h2
    have h3 := h2.1.2
    rw [← h1] at h3
    revert h3
    decide

/-- C13 (amended): `wait_queue_add` on a queue with members `l` returns or faults; it
changes no task state and calls `task_wakeup` on no task; the only link nodes it can
change are the link of the added task, the head of the queue and the old tail; and
every other queue that does not have the added task among its members keeps its
members. -/
theorem wait_queue_add_frame (fuel q t : Nat) (s : Kernel) (l : List Nat)
    (hfree : s.locked q = false) (hq : is_queue s.mem q l) (hf : l.length < fuel) :
    ∃ s2, (wait_queue_add fuel q t s = Outcome.returned s2 ∨
        wait_queue_add fuel q t s = Outcome.fault s2) ∧
      s2.state = s.state ∧ woken s2.trace = woken s.trace ∧
      (∀ p, p ≠ Ptr.task_list t → p ≠ Ptr.wait_list q →
        p ≠ (s.mem (Ptr.wait_list q)).prev → s2.mem p = s.mem p) ∧
      (∀ q2 l2, q2 ≠ q → is_queue s.mem q2 l2 → t ∉ l2 → is_queue s2.mem q2 l2) := by
  by_cases ht : t ∈ l
  · refine ⟨_, Or.inr (wait_queue_add_fault fuel q t s l hfree hq hf ht),
      rfl, ?_, fun _ _ _ _ => rfl, fun _ _ _ h _ => h⟩
    simp [lock_acquired, log_access, woken_append, woken_acquire]
  · obtain ⟨s2, hrun, hmem, hstate, _, _, htrace⟩ :=
      wait_queue_add_returned fuel q t s l hfree hq hf ht
    refine ⟨s2, Or.inl hrun, hstate, ?_, ?_, ?_⟩
    · rw [htrace]; simp [woken]
    · intro p h1 h2 h3
      rw [hmem]
      exact list_add_tail_frame _ _ _ _ h1 h2 h3
    · intro q2 l2 hne hq2 ht2
      rw [hmem]
      refine is_queue_congr hq2 ?_ ?_
      · exact list_add_tail_frame_queue t _ hq (by simp) (by simp [hne])
      · intro x hx
        refine list_add_tail_frame_queue t _ hq ?_ ?_
        · intro hc; cases hc; exact ht2 hx
        · have := is_queue_disjoint hne hq2 hq x hx
          simpa using this

theorem wait_queue_add_frame_witness :
    ∃ s2, (wait_queue_add 3 0 9 two_waiters = Outcome.returned s2 ∨
        wait_queue_add 3 0 9 two_waiters = Outcome.fault s2) ∧
      s2.state = two_waiters.state ∧ woken s2.trace = woken two_waiters.trace ∧
      (∀ p, p ≠ Ptr.task_list 9 → p ≠ Ptr.wait_list 0 →
        p ≠ (two_waiters.mem (Ptr.wait_list 0)).prev → s2.mem p = two_waiters.mem p) ∧
      (∀ q2 l2, q2 ≠ 0 → is_queue two_waiters.mem q2 l2 → 9 ∉ l2 → is_queue s2.mem q2 l2) :=
  wait_queue_add_frame 3 0 9 two_waiters [7, 8] rfl (by decide) (by decide)

/-! ## Task states of the members -/

theorem step_members_blocked (fuel q : Nat) (op : Op) (s : Kernel) (l : List Nat)
    (hop : op.queue = q) (hfree : s.locked q = false) (hq : is_queue s.mem q l)
    (hf : l.length < fuel)
    (hb : ∀ x ∈ l, s.state (Ptr.task_list x) = task_state.TASK_BLOCKED)
    (hg : add_blocked op s = true) :
    ∃ s2 l2, ((step fuel op s = Outcome.returned s2 ∧ s2.locked = s.locked) ∨
        step fuel op s = Outcome.fault s2) ∧
      is_queue s2.mem q l2 ∧ l2.length ≤ l.length + 1 ∧
      ∀ x ∈ l2, s2.state (Ptr.task_list x) = task_state.TASK_BLOCKED := by
  have hstep := step_members fuel q op s l hop hfree hq hf
  cases hm : members_step op l with
  | none =>
    rw [hm] at hstep
    obtain ⟨sf, hstep, hmemf, hstatef, _⟩ := hstep
    exact ⟨sf, l, Or.inr hstep, by rw [hmemf]; exact hq, by omega, by rw [hstatef]; exact hb⟩
  | some r =>
    obtain ⟨l2, w⟩ := r
    rw [hm] at hstep
    obtain ⟨s2, hrun, hq2, hlocked, _, hstate, _⟩ := hstep
    refine ⟨s2, l2, Or.inl ⟨hrun, hlocked⟩, hq2, members_step_length op l l2 w hm, ?_⟩
    intro x hx
    rw [hstate]
    cases op with
    | add q1 t =>
      simp only [members_step] at hm
      split at hm
      · cases hm
      · cases hm
        simp only [add_blocked, decide_eq_true_eq] at hg
        simp only [List.map_nil, woken_state_nil]
        rcases List.mem_append.mp hx with h1 | h1
        · exact hb x h1
        · simp at h1; rw [h1]; exact hg
    | remove q1 t =>
      simp only [members_step] at hm
      cases hm
      simp only [List.map_nil, woken_state_nil]
      exact hb x (List.mem_of_mem_erase hx)
    | wakeup q1 =>
      simp only [members_step] at hm
      cases hm
      have hnd : (l.take 1 ++ l.drop 1).Nodup := by rw [List.take_append_drop]; exact hq.1
      have hx2 : x ∉ l.take 1 := fun hc => (List.nodup_append.mp hnd).2.2 hc hx
      have : Ptr.task_list x ∉ (l.take 1).map Ptr.task_list := by
        intro hc
        obtain ⟨y, hy, hxy⟩ := List.mem_map.mp hc
        cases hxy
        exact hx2 hy
      simp only [woken_state, this, false_and, if_false]
      exact hb x (List.mem_of_mem_drop hx)
    | wakeup_all q1 =>
      simp only [members_step] at hm
      cases hm
      simp at hx

theorem run_members_blocked (fuel q : Nat) : ∀ (ops : List Op) (l : List Nat) (s : Kernel),
    (∀ op ∈ ops, op.queue = q) → s.locked q = false → is_queue s.mem q l →
    l.length + ops.length < fuel →
    (∀ x ∈ l, s.state (Ptr.task_list x) = task_state.TASK_BLOCKED) →
    blocked_adds fuel ops s = true →
    ∃ s2 l2, (run fuel ops s = Outcome.returned s2 ∨ run fuel ops s = Outcome.fault s2) ∧
      is_queue s2.mem q l2 ∧
      ∀ x ∈ l2, s2.state (Ptr.task_list x) = task_state.TASK_BLOCKED := by
  intro ops
  induction ops with
  | nil =>
    intro l s _ _ hq _ hb _
    exact ⟨s, l, Or.inl rfl, hq, hb⟩
  | cons op ops ih =>
    intro l s hops hfree hq hf hb hg
    simp only [blocked_adds, Bool.and_eq_true] at hg
    obtain ⟨s1, l1, hstep, hq1, hlen, hb1⟩ :=
      step_members_blocked fuel q op s l (hops op (by simp)) hfree hq
        (by simp at hf; omega) hb hg.1
    rcases hstep with ⟨hstep, hlocked⟩ | hstep
    · have hg1 : blocked_adds fuel ops s1 = true := by
        have := hg.2
        rw [hstep] at this
        exact this
      obtain ⟨s2, l2, hrun, hq2, hb2⟩ :=
        ih l1 s1 (fun o ho => hops o (List.mem_cons_of_mem _ ho))
          (by rw [hlocked]; exact hfree) hq1 (by simp at hf; omega) hb1 hg1
      refine ⟨s2, l2, ?_, hq2, hb2⟩
      simp only [run, hstep]
      exact hrun
    · refine ⟨s1, l1, Or.inr ?_, hq1, hb1⟩
      simp only [run, hstep]

theorem blocked_adds_take (fuel : Nat) : ∀ (ops : List Op) (n : Nat) (s : Kernel),
    blocked_adds fuel ops s = true → blocked_adds fuel (ops.take n) s = true := by
  intro ops
  induction ops with
  | nil => intro n s _; simp [blocked_adds]
  | cons op ops ih =>
    intro n s hd
    cases n with
    | zero => simp [blocked_adds]
    | succ n =>
      simp only [List.take_succ_cons, blocked_adds, Bool.and_eq_true] at hd ⊢
      refine ⟨hd.1, ?_⟩
      cases hstep : step fuel op s with
      | returned s1 =>
        have := hd.2
        rw [hstep] at this
        exact ih n s1 this
      | fault s1 => rfl
      | spin => rfl
      | out_of_fuel => rfl

/-- C14 (as stated, refuted): from the boot state, in which every task is BLOCKED,
adding task 7 to queue 0, waking it and adding it again leaves task 7 a member of
queue 0 in state READY. -/
theorem member_not_blocked :
    ∃ s2, run 2 [Op.add 0 7, Op.wakeup 0, Op.add 0 7] boot = Outcome.returned s2 ∧
      is_queue s2.mem 0 [7] ∧ s2.state (Ptr.task_list 7) = task_state.TASK_READY := by
  refine ⟨_, rfl, by decide, by decide⟩

/-- C14 (amended): when the members of a queue are BLOCKED, after every initial part of
every finite sequence of calls on that queue in which each `wait_queue_add` is applied
to a task that is BLOCKED at the time of the call, every member of the queue is
BLOCKED. -/
theorem members_blocked (fuel q : Nat) (ops : List Op) (s : Kernel) (l : List Nat)
    (hfree : s.locked q = false) (hq : is_queue s.mem q l)
    (hb : ∀ x ∈ l, s.state (Ptr.task_list x) = task_state.TASK_BLOCKED)
    (hops : ∀ op ∈ ops, op.queue = q) (hf : l.length + ops.length < fuel)
    (hg : blocked_adds fuel ops s = true) :
    ∀ n, ∃ s2 l2, (run fuel (ops.take n) s = Outcome.returned s2 ∨
        run fuel (ops.take n) s = Outcome.fault s2) ∧
      is_queue s2.mem q l2 ∧
      ∀ x ∈ l2, s2.state (Ptr.task_list x) = task_state.TASK_BLOCKED := by
  intro n
  exact run_members_blocked fuel q (ops.take n) l s
    (fun o ho => hops o (List.mem_of_mem_take ho)) hfree hq
    (by simp only [List.length_take]; omega) hb (blocked_adds_take fuel ops n s hg)

theorem members_blocked_witness :
    ∃ s2 l2, (run 7 ([Op.add 0 9, Op.wakeup 0, Op.add 0 5, Op.remove 0 8].take 4)
          two_waiters = Outcome.returned s2 ∨
        run 7 ([Op.add 0 9, Op.wakeup 0, Op.add 0 5, Op.remove 0 8].take 4)
          two_waiters = Outcome.fault s2) ∧
      is_queue s2.mem 0 l2 ∧
      ∀ x ∈ l2, s2.state (Ptr.task_list x) = task_state.TASK_BLOCKED :=
  members_blocked 7 0 [Op.add 0 9, Op.wakeup 0, Op.add 0 5, Op.remove 0 8] two_waiters [7, 8]
    rfl (by decide) (by decide) (by decide) (by decide) (by decide) 4

/-! ## The lock -/

theorem wakes_with_lock_held (q : Nat) : ∀ (ws : List Ptr),
    wakes_with_lock q true true (ws.map Event.wake ++ [Event.release q]) = true := by
  intro ws
  induction ws with
  | nil => simp [wakes_with_lock]
  | cons w ws ih => simp [wakes_with_lock, ih]

theorem wakes_with_lock_call (q : Nat) (ws : List Ptr) :
    wakes_with_lock q true false
      ([Event.acquire q] ++ ws.map Event.wake ++ [Event.release q]) = true := by
  simp only [List.singleton_append, List.cons_append, wakes_with_lock, if_true]
  exact wakes_with_lock_held q ws

/-- C15 (as stated, refuted): `wait_queue_wakeup` on a queue with the members 7 and 8
appends the events acquire, wake 7, release: `task_wakeup` is called between the acquire
and the release, while the lock is held. -/
theorem wakeup_inside_lock :
    ∃ s2, wait_queue_wakeup 0 two_waiters = Outcome.returned s2 ∧
      s2.trace = two_waiters.trace ++
        [Event.acquire 0, Event.wake (Ptr.task_list 7), Event.release 0] ∧
      wakes_with_lock 0 false false
        [Event.acquire 0, Event.wake (Ptr.task_list 7), Event.release 0] = false := by
  refine ⟨_, rfl, by decide, by decide⟩

/-- C15 (amended): in the events of `wait_queue_wakeup` and of `wait_queue_wakeup_all`
every call of `task_wakeup` happens while the queue's lock is held: after the acquire,
which is the first event of the call, and before the release, which is the last. -/
theorem wakeup_under_lock (fuel q : Nat) (s : Kernel) (l : List Nat)
    (hfree : s.locked q = false) (hq : is_queue s.mem q l) (hf : l.length < fuel) :
    (∃ (s2 : Kernel) (ws : List Ptr), wait_queue_wakeup q s = Outcome.returned s2 ∧
      s2.trace = s.trace ++ ([Event.acquire q] ++ ws.map Event.wake ++ [Event.release q]) ∧
      wakes_with_lock q true false
        ([Event.acquire q] ++ ws.map Event.wake ++ [Event.release q]) = true) ∧
    (∃ (s2 : Kernel) (ws : List Ptr), wait_queue_wakeup_all fuel q s = Outcome.returned s2 ∧
      s2.trace = s.trace ++ ([Event.acquire q] ++ ws.map Event.wake ++ [Event.release q]) ∧
      wakes_with_lock q true false
        ([Event.acquire q] ++ ws.map Event.wake ++ [Event.release q]) = true) := by
  constructor
  · have h := step_members fuel q (Op.wakeup q) s l rfl hfree hq hf
    simp only [members_step, step] at h
    obtain ⟨s2, hrun, _, _, _, _, htrace⟩ := h
    exact ⟨s2, (l.take 1).map Ptr.task_list, hrun,
      by rw [htrace]; simp only [List.append_assoc], wakes_with_lock_call q _⟩
  · have h := step_members fuel q (Op.wakeup_all q) s l rfl hfree hq hf
    simp only [members_step, step] at h
    obtain ⟨s2, hrun, _, _, _, _, htrace⟩ := h
    exact ⟨s2, l.map Ptr.task_list, hrun,
      by rw [htrace]; simp only [List.append_assoc], wakes_with_lock_call q _⟩

theorem wakeup_under_lock_witness :
    (∃ (s2 : Kernel) (ws : List Ptr), wait_queue_wakeup 0 two_waiters = Outcome.returned s2 ∧
      s2.trace = two_waiters.trace ++
        ([Event.acquire 0] ++ ws.map Event.wake ++ [Event.release 0]) ∧
      wakes_with_lock 0 true false
        ([Event.acquire 0] ++ ws.map Event.wake ++ [Event.release 0]) = true) ∧
    (∃ (s2 : Kernel) (ws : List Ptr), wait_queue_wakeup_all 3 0 two_waiters = Outcome.returned s2 ∧
      s2.trace = two_waiters.trace ++
        ([Event.acquire 0] ++ ws.map Event.wake ++ [Event.release 0]) ∧
      wakes_with_lock 0 true false
        ([Event.acquire 0] ++ ws.map Event.wake ++ [Event.release 0]) = true) :=
  wakeup_under_lock 3 0 two_waiters [7, 8] rfl (by decide) (by decide)

theorem wait_queue_add_log_example :
    ∃ s2, wait_queue_add 3 0 9 two_waiters = Outcome.returned s2 ∧
      s2.log = [Step.acquire 0,
        Step.access (list_call.list_find (Ptr.task_list 9) (Ptr.wait_list 0)),
        Step.access (list_call.list_add_tail (Ptr.task_list 9) (Ptr.wait_list 0)),
        Step.release 0] :=
  ⟨_, rfl, rfl⟩

theorem wait_queue_wakeup_all_log_example :
    ∃ s2, wait_queue_wakeup_all 3 0 two_waiters = Outcome.returned s2 ∧
      s2.log = [Step.acquire 0,
        Step.access (list_call.list_first_owner (Ptr.wait_list 0)),
        Step.access (list_call.list_next_owner (Ptr.task_list 7)),
        Step.access (list_call.list_del (Ptr.task_list 7)),
        Step.access (list_call.list_next_owner (Ptr.task_list 8)),
        Step.access (list_call.list_del (Ptr.task_list 8)),
        Step.access (list_call.list_next_owner (Ptr.wait_list 0)),
        Step.release 0] :=
  ⟨_, rfl, rfl⟩

/-! ## Waking all and waking one by one -/

theorem run_wakeups_all (fuel q : Nat) : ∀ (l : List Nat) (s : Kernel),
    s.locked q = false → is_queue s.mem q l →
    ∃ s2, run fuel (List.replicate l.length (Op.wakeup q)) s = Outcome.returned s2 ∧
      s2.mem = (fun z => if z ∈ Ptr.wait_list q :: l.map Ptr.task_list
                         then { prev := z, next := z } else s.mem z) ∧
      s2.state = woken_state (l.map Ptr.task_list) s.state ∧
      woken s2.trace = woken s.trace ++ l.map Ptr.task_list := by
  intro l
  induction l with
  | nil =>
    intro s _ hq
    refine ⟨s, rfl, ?_, by simp [woken_state_nil], by simp⟩
    funext z
    by_cases hz : z = Ptr.wait_list q
    · subst hz; simp [(is_queue_nil s.mem q).mp hq]
    · simp [hz]
  | cons h rest ih =>
    intro s hfree hq
    have hfirst := is_queue_first s.mem q h rest hq
    obtain ⟨s1, hrun1, hmem1, hstate1, hlocked1, _, htrace1⟩ :=
      wait_queue_wakeup_first q s hfree (by rw [hfirst]; simp)
    rw [hfirst] at hmem1 hstate1 htrace1
    have hq1 : is_queue s1.mem q rest := by
      rw [hmem1]
      have := is_queue_del h hq (by simp)
      simpa using this
    have hh : h ∉ rest := (List.nodup_cons.mp hq.1).1
    obtain ⟨s2, hrun2, hmem2, hstate2, htrace2⟩ :=
      ih s1 (by rw [hlocked1]; exact hfree) hq1
    refine ⟨s2, ?_, ?_, ?_, ?_⟩
    · simp only [List.length_cons, List.replicate_succ, run, step, hrun1]
      exact hrun2
    · rw [hmem2, hmem1]
      funext z
      by_cases hz : z ∈ Ptr.wait_list q :: rest.map Ptr.task_list
      · have : z ∈ Ptr.wait_list q :: (h :: rest).map Ptr.task_list := by
          simp only [List.map_cons, List.mem_cons] at hz ⊢; tauto
        simp only [hz, this, if_true]
      · by_cases hzh : z = Ptr.task_list h
        · subst hzh
          simp only [hz, if_false, list_del_self]
          simp
        · have hz2 : z ∉ Ptr.wait_list q :: (h :: rest).map Ptr.task_list := by
            simp only [List.map_cons, List.mem_cons] at hz ⊢; tauto
          simp only [hz, hz2, if_false]
          exact list_del_frame_queue h z hq (by simp) hz2
    · rw [hstate2, hstate1]
      funext z
      by_cases hzh : z = Ptr.task_list h
      · subst hzh
        by_cases hb : s.state (Ptr.task_list h) = task_state.TASK_BLOCKED
        · simp [woken_state, task_wakeup, hb, hh]
        · simp [woken_state, task_wakeup, hb, hh]
      · simp [woken_state, task_wakeup, hzh]
    · rw [htrace2, htrace1]
      simp [woken]

/-- C17: on a queue with members `l`, `wait_queue_wakeup_all` and as many calls of
`wait_queue_wakeup` as there are members both return, and they end with the same link
memory (the queue empty, every woken task with the same link), the same task states and
the same sequence of `task_wakeup` calls. -/
theorem wakeup_all_eq_wakeups (fuel q : Nat) (s : Kernel) (l : List Nat)
    (hfree : s.locked q = false) (hq : is_queue s.mem q l) (hf : l.length < fuel) :
    ∃ sa sb, wait_queue_wakeup_all fuel q s = Outcome.returned sa ∧
      run fuel (List.replicate l.length (Op.wakeup q)) s = Outcome.returned sb ∧
      is_queue sa.mem q [] ∧ is_queue sb.mem q [] ∧
      woken sa.trace = woken sb.trace ∧
      (∀ t ∈ l, sa.mem (Ptr.task_list t) = sb.mem (Ptr.task_list t)) ∧
      sa.mem = sb.mem ∧ sa.state = sb.state := by
  obtain ⟨sa, hruna, hmema, hstatea, _, _, htracea⟩ :=
    wait_queue_wakeup_all_returned fuel q s l hfree hq hf
  obtain ⟨sb, hrunb, hmemb, hstateb, htraceb⟩ := run_wakeups_all fuel q l s hfree hq
  have hmem : sa.mem = sb.mem := by rw [hmema, hmemb]
  refine ⟨sa, sb, hruna, hrunb, ?_, ?_, ?_, ?_, hmem, ?_⟩
  · rw [is_queue_nil, hmema]; simp
  · rw [is_queue_nil, hmemb]; simp
  · rw [htraceb, htracea, woken_append, woken_append, woken_append, woken_wakes,
      woken_acquire, woken_release]
    simp
  · intro t _; rw [hmem]
  · rw [hstatea, hstateb]; rfl

theorem wakeup_all_eq_wakeups_witness :
    ∃ sa sb, wait_queue_wakeup_all 3 0 two_waiters = Outcome.returned sa ∧
      run 3 (List.replicate [7, 8].length (Op.wakeup 0)) two_waiters = Outcome.returned sb ∧
      is_queue sa.mem 0 [] ∧ is_queue sb.mem 0 [] ∧
      woken sa.trace = woken sb.trace ∧
      (∀ t ∈ [7, 8], sa.mem (Ptr.task_list t) = sb.mem (Ptr.task_list t)) ∧
      sa.mem = sb.mem ∧ sa.state = sb.state :=
  wakeup_all_eq_wakeups 3 0 two_waiters [7, 8] rfl (by decide) (by decide)

/-! ## The virtual floppy -/

theorem memcpy_miss (dst dst_at src src_at : Nat → Nat) : ∀ (n a : Nat),
    (∀ j, j < n → a ≠ dst_at j) → memcpy dst dst_at src src_at n a = dst a := by
  intro n
  induction n with
  | zero => intro a _; rfl
  | succ n ih =>
    intro a h
    simp only [memcpy, h n (Nat.lt_succ_self n), if_false]
    exact ih a (fun j hj => h j (Nat.lt_succ_of_lt hj))

theorem memcpy_hit (dst dst_at src src_at : Nat → Nat) : ∀ (n i : Nat), i < n →
    (∀ j, j < n → dst_at j = dst_at i → j = i) →
    memcpy dst dst_at src src_at n (dst_at i) = src (src_at i) := by
  intro n
  induction n with
  | zero => intro i hi; omega
  | succ n ih =>
    intro i hi hinj
    by_cases hin : i = n
    · subst hin; simp [memcpy]
    · have hne : dst_at i ≠ dst_at n := fun hc => hin (hinj n (Nat.lt_succ_self n) hc.symm).symm
      simp only [memcpy, hne, if_false]
      exact ih i (by omega) (fun j hj => hinj j (Nat.lt_succ_of_lt hj))

theorem device_at_injective (SECTOR_SIZE off i j : Nat) (hi : i < ULONG_RANGE)
    (hj : j < ULONG_RANGE) (h : device_at SECTOR_SIZE off i = device_at SECTOR_SIZE off j) :
    i = j := by
  unfold device_at at h
  have hs : off * SECTOR_SIZE % ULONG_RANGE < ULONG_RANGE := Nat.mod_lt _ (by decide)
  generalize off * SECTOR_SIZE % ULONG_RANGE = s at h hs
  unfold ULONG_RANGE at *
  omega

theorem device_at_in_range (SECTOR_SIZE off i : Nat)
    (h : off * SECTOR_SIZE + i < ULONG_RANGE) :
    device_at SECTOR_SIZE off i = off * SECTOR_SIZE + i := by
  unfold device_at
  have h1 : off * SECTOR_SIZE < ULONG_RANGE := by omega
  rw [Nat.mod_eq_of_lt h1, Nat.mod_eq_of_lt h]

theorem check_in_range (SECTOR_SIZE sectors off length : Nat) (hs : 0 < SECTOR_SIZE)
    (hw : off + length / SECTOR_SIZE < ULONG_RANGE)
    (h : ¬ (off + length / SECTOR_SIZE) % ULONG_RANGE ≥ sectors) :
    off * SECTOR_SIZE + length < sectors * SECTOR_SIZE := by
  rw [Nat.mod_eq_of_lt hw] at h
  have h1 : length < SECTOR_SIZE * (length / SECTOR_SIZE + 1) := Nat.lt_mul_div_succ length hs
  have h2 : off + length / SECTOR_SIZE + 1 ≤ sectors := by omega
  have h3 : (off + length / SECTOR_SIZE + 1) * SECTOR_SIZE ≤ sectors * SECTOR_SIZE :=
    Nat.mul_le_mul_right _ h2
  have h4 : (off + length / SECTOR_SIZE + 1) * SECTOR_SIZE =
      off * SECTOR_SIZE + SECTOR_SIZE * (length / SECTOR_SIZE + 1) := by ring
  omega

theorem vfloppy_read_status (SECTOR_SIZE : Nat) (extension : device_extension_t)
    (ioreq : io_request_t) :
    (vfloppy_read SECTOR_SIZE extension ioreq).1 =
      if (ioreq.offset + ioreq.length / SECTOR_SIZE) % ULONG_RANGE ≥ extension.sectors
      then iostatus_t.IO_FAILED else iostatus_t.IO_SUCCESS := by
  by_cases hc : (ioreq.offset + ioreq.length / SECTOR_SIZE) % ULONG_RANGE ≥ extension.sectors
  · simp only [vfloppy_read, hc, if_true]
  · simp only [vfloppy_read, hc, if_false]

theorem vfloppy_write_status (SECTOR_SIZE : Nat) (extension : device_extension_t)
    (ioreq : io_request_t) :
    (vfloppy_write SECTOR_SIZE extension ioreq).1 =
      if (ioreq.offset + ioreq.length / SECTOR_SIZE) % ULONG_RANGE ≥ extension.sectors
      then iostatus_t.IO_FAILED else iostatus_t.IO_SUCCESS := by
  by_cases hc : (ioreq.offset + ioreq.length / SECTOR_SIZE) % ULONG_RANGE ≥ extension.sectors
  · simp only [vfloppy_write, hc, if_true]
  · simp only [vfloppy_write, hc, if_false]

/-- An accepted transfer whose sector sum does not wrap lies inside the disk. -/
theorem vfloppy_accepted_in_range (SECTOR_SIZE : Nat) (extension : device_extension_t)
    (ioreq : io_request_t) (hs : 0 < SECTOR_SIZE)
    (hw : ioreq.offset + ioreq.length / SECTOR_SIZE < ULONG_RANGE) :
    ((vfloppy_read SECTOR_SIZE extension ioreq).1 = iostatus_t.IO_SUCCESS →
      ioreq.offset * SECTOR_SIZE + ioreq.length < extension.sectors * SECTOR_SIZE) ∧
    ((vfloppy_write SECTOR_SIZE extension ioreq).1 = iostatus_t.IO_SUCCESS →
      ioreq.offset * SECTOR_SIZE + ioreq.length < extension.sectors * SECTOR_SIZE) := by
  constructor
  · intro h
    rw [vfloppy_read_status] at h
    by_cases hc : (ioreq.offset + ioreq.length / SECTOR_SIZE) % ULONG_RANGE ≥ extension.sectors
    · simp [hc] at h
    · exact check_in_range _ _ _ _ hs hw hc
  · intro h
    rw [vfloppy_write_status] at h
    by_cases hc : (ioreq.offset + ioreq.length / SECTOR_SIZE) % ULONG_RANGE ≥ extension.sectors
    · simp [hc] at h
    · exact check_in_range _ _ _ _ hs hw hc

/-- C18 (not met by the code): with 512-byte sectors and the extension set up
by `vfloppy_enter`, a read and a write of 512 bytes at sector 4294967295 pass the
out-of-range check because the sector sum wraps to 0, and the bytes copied start at
offset 4294966784 from the buffer, beyond its 1048576 bytes. -/
theorem vfloppy_check_wraps :
    (vfloppy_enter 512 iostatus_t.IO_SUCCESS floppy.buffer).2 = some floppy ∧
    floppy.buflen = floppy.sectors * 512 ∧
    (4294967295 + 512 / 512) % ULONG_RANGE = 0 ∧
    (vfloppy_read 512 floppy (request 4294967295 512)).1 = iostatus_t.IO_SUCCESS ∧
    (vfloppy_write 512 floppy (request 4294967295 512)).1 = iostatus_t.IO_SUCCESS ∧
    ¬ (4294967295 * 512 + 512 ≤ floppy.buflen) ∧
    device_at 512 4294967295 0 = 4294966784 ∧
    floppy.buflen ≤ device_at 512 4294967295 0 ∧
    (vfloppy_read 512 floppy (request 4294967295 512)).2.2.user_buffer 0 =
      floppy.buffer (device_at 512 4294967295 0) := by
  refine ⟨rfl, rfl, by decide, by decide, by decide, by decide, by decide, by decide, ?_⟩
  have h : (vfloppy_read 512 floppy (request 4294967295 512)).2.2.user_buffer =
      memcpy (request 4294967295 512).user_buffer id floppy.buffer
        (device_at 512 4294967295) 512 := rfl
  rw [h]
  exact memcpy_hit _ id _ _ 512 0 (by decide) (fun j _ hj => hj)

theorem vfloppy_check_plain (SECTOR_SIZE sectors off length : Nat)
    (hw : off + length / SECTOR_SIZE < ULONG_RANGE) :
    (off + length / SECTOR_SIZE) % ULONG_RANGE ≥ sectors ↔
      off + length / SECTOR_SIZE ≥ sectors := by
  rw [Nat.mod_eq_of_lt hw]

/-- Whatever the sector size and the number of sectors, a transfer of one sector at
sector 4294967295 passes the check of `vfloppy_read` and of `vfloppy_write` and starts
beyond the end of the disk. -/
theorem vfloppy_check_wraps_any (SECTOR_SIZE : Nat) (extension : device_extension_t)
    (ioreq : io_request_t) (h0 : 0 < SECTOR_SIZE) (hs : 0 < extension.sectors)
    (hsec : extension.sectors < ULONG_RANGE) (hoff : ioreq.offset = ULONG_RANGE - 1)
    (hlen : ioreq.length = SECTOR_SIZE) :
    (vfloppy_read SECTOR_SIZE extension ioreq).1 = iostatus_t.IO_SUCCESS ∧
    (vfloppy_write SECTOR_SIZE extension ioreq).1 = iostatus_t.IO_SUCCESS ∧
    extension.sectors * SECTOR_SIZE ≤ ioreq.offset * SECTOR_SIZE := by
  have hsum : (ioreq.offset + ioreq.length / SECTOR_SIZE) % ULONG_RANGE = 0 := by
    rw [hoff, hlen, Nat.div_self h0]
    decide
  have hc : ¬ (ioreq.offset + ioreq.length / SECTOR_SIZE) % ULONG_RANGE ≥ extension.sectors := by
    rw [hsum]; omega
  refine ⟨by rw [vfloppy_read_status]; simp only [hc, if_false],
    by rw [vfloppy_write_status]; simp only [hc, if_false], ?_⟩
  rw [hoff]
  exact Nat.mul_le_mul_right _ (by omega)

/-- What the code does about failure: `vfloppy_read` and `vfloppy_write` return IO_FAILED
exactly when the sum `off + length / SECTOR_SIZE`, reduced modulo 2^32, is at least
`sectors`, which is the comparison of the sum itself only when the sum does not wrap;
on IO_FAILED the device extension, the user buffer and `io_status.infomation` are
unchanged; otherwise they return IO_SUCCESS with `io_status.infomation = length`; in
both cases the returned status is the one stored in `io_status.status` and
`io_complete_request` has been called once. -/
theorem vfloppy_failure_exact (SECTOR_SIZE : Nat) (extension : device_extension_t)
    (ioreq : io_request_t) :
    (((vfloppy_read SECTOR_SIZE extension ioreq).1 = iostatus_t.IO_FAILED ↔
        (ioreq.offset + ioreq.length / SECTOR_SIZE) % ULONG_RANGE ≥ extension.sectors) ∧
      (ioreq.offset + ioreq.length / SECTOR_SIZE < ULONG_RANGE →
        ((vfloppy_read SECTOR_SIZE extension ioreq).1 = iostatus_t.IO_FAILED ↔
          ioreq.offset + ioreq.length / SECTOR_SIZE ≥ extension.sectors)) ∧
      ((vfloppy_read SECTOR_SIZE extension ioreq).1 = iostatus_t.IO_FAILED →
        (vfloppy_read SECTOR_SIZE extension ioreq).2.1 = extension ∧
        (vfloppy_read SECTOR_SIZE extension ioreq).2.2.user_buffer = ioreq.user_buffer ∧
        (vfloppy_read SECTOR_SIZE extension ioreq).2.2.infomation = ioreq.infomation) ∧
      ((vfloppy_read SECTOR_SIZE extension ioreq).1 ≠ iostatus_t.IO_FAILED →
        (vfloppy_read SECTOR_SIZE extension ioreq).1 = iostatus_t.IO_SUCCESS ∧
        (vfloppy_read SECTOR_SIZE extension ioreq).2.2.infomation = ioreq.length) ∧
      (vfloppy_read SECTOR_SIZE extension ioreq).2.2.status =
        (vfloppy_read SECTOR_SIZE extension ioreq).1 ∧
      (vfloppy_read SECTOR_SIZE extension ioreq).2.2.completed = ioreq.completed + 1) ∧
    (((vfloppy_write SECTOR_SIZE extension ioreq).1 = iostatus_t.IO_FAILED ↔
        (ioreq.offset + ioreq.length / SECTOR_SIZE) % ULONG_RANGE ≥ extension.sectors) ∧
      (ioreq.offset + ioreq.length / SECTOR_SIZE < ULONG_RANGE →
        ((vfloppy_write SECTOR_SIZE extension ioreq).1 = iostatus_t.IO_FAILED ↔
          ioreq.offset + ioreq.length / SECTOR_SIZE ≥ extension.sectors)) ∧
      ((vfloppy_write SECTOR_SIZE extension ioreq).1 = iostatus_t.IO_FAILED →
        (vfloppy_write SECTOR_SIZE extension ioreq).2.1 = extension ∧
        (vfloppy_write SECTOR_SIZE extension ioreq).2.2.user_buffer = ioreq.user_buffer ∧
        (vfloppy_write SECTOR_SIZE extension ioreq).2.2.infomation = ioreq.infomation) ∧
      ((vfloppy_write SECTOR_SIZE extension ioreq).1 ≠ iostatus_t.IO_FAILED →
        (vfloppy_write SECTOR_SIZE extension ioreq).1 = iostatus_t.IO_SUCCESS ∧
        (vfloppy_write SECTOR_SIZE extension ioreq).2.2.infomation = ioreq.length) ∧
      (vfloppy_write SECTOR_SIZE extension ioreq).2.2.status =
        (vfloppy_write SECTOR_SIZE extension ioreq).1 ∧
      (vfloppy_write SECTOR_SIZE extension ioreq).2.2.completed = ioreq.completed + 1) := by
  have hr : (vfloppy_read SECTOR_SIZE extension ioreq).1 = iostatus_t.IO_FAILED ↔
      (ioreq.offset + ioreq.length / SECTOR_SIZE) % ULONG_RANGE ≥ extension.sectors := by
    rw [vfloppy_read_status]
    by_cases hc : (ioreq.offset + ioreq.length / SECTOR_SIZE) % ULONG_RANGE ≥ extension.sectors
    · simp [hc]
    · simp [hc]
  have hwr : (vfloppy_write SECTOR_SIZE extension ioreq).1 = iostatus_t.IO_FAILED ↔
      (ioreq.offset + ioreq.length / SECTOR_SIZE) % ULONG_RANGE ≥ extension.sectors := by
    rw [vfloppy_write_status]
    by_cases hc : (ioreq.offset + ioreq.length / SECTOR_SIZE) % ULONG_RANGE ≥ extension.sectors
    · simp [hc]
    · simp [hc]
  refine ⟨⟨hr, fun hw => hr.trans (vfloppy_check_plain _ _ _ _ hw), ?_⟩,
    ⟨hwr, fun hw => hwr.trans (vfloppy_check_plain _ _ _ _ hw), ?_⟩⟩
  · by_cases hc : (ioreq.offset + ioreq.length / SECTOR_SIZE) % ULONG_RANGE ≥ extension.sectors
    · simp [vfloppy_read, hc, io_complete_request]
    · simp [vfloppy_read, hc, io_complete_request]
  · by_cases hc : (ioreq.offset + ioreq.length / SECTOR_SIZE) % ULONG_RANGE ≥ extension.sectors
    · simp [vfloppy_write, hc, io_complete_request]
    · simp [vfloppy_write, hc, io_complete_request]

/-- C19 (not met by the code): with 512-byte sectors and the extension set up by
`vfloppy_enter`, a request of 512 bytes at sector 4294967295 has
`off + length / SECTOR_SIZE >= sectors`, yet `vfloppy_read` and `vfloppy_write` do not
return IO_FAILED: each returns IO_SUCCESS, stores IO_SUCCESS and the length 512 in
`io_status`, and copies bytes, the read changing byte 0 of the user buffer from 1 to 0
and the write changing the byte at offset 4294966784 from the device buffer from 0
to 1. -/
theorem vfloppy_failure_not_exact :
    (vfloppy_enter 512 iostatus_t.IO_SUCCESS floppy.buffer).2 = some floppy ∧
    (request 4294967295 512).offset + (request 4294967295 512).length / 512 ≥ floppy.sectors ∧
    (vfloppy_read 512 floppy (request 4294967295 512)).1 ≠ iostatus_t.IO_FAILED ∧
    (vfloppy_write 512 floppy (request 4294967295 512)).1 ≠ iostatus_t.IO_FAILED ∧
    (vfloppy_read 512 floppy (request 4294967295 512)).2.2.status = iostatus_t.IO_SUCCESS ∧
    (vfloppy_write 512 floppy (request 4294967295 512)).2.2.status = iostatus_t.IO_SUCCESS ∧
    (request 4294967295 512).infomation = 0 ∧
    (vfloppy_read 512 floppy (request 4294967295 512)).2.2.infomation = 512 ∧
    (vfloppy_write 512 floppy (request 4294967295 512)).2.2.infomation = 512 ∧
    (request 4294967295 512).user_buffer 0 = 1 ∧
    (vfloppy_read 512 floppy (request 4294967295 512)).2.2.user_buffer 0 = 0 ∧
    floppy.buffer 4294966784 = 0 ∧
    (vfloppy_write 512 floppy (request 4294967295 512)).2.1.buffer 4294966784 = 1 := by
  refine ⟨rfl, by decide, by decide, by decide, by decide, by decide, rfl, by decide,
    by decide, rfl, ?_, rfl, ?_⟩
  · have h : (vfloppy_read 512 floppy (request 4294967295 512)).2.2.user_buffer =
        memcpy (request 4294967295 512).user_buffer id floppy.buffer
          (device_at 512 4294967295) 512 := rfl
    rw [h]
    exact memcpy_hit _ id _ _ 512 0 (by decide) (fun j _ hj => hj)
  · have key := memcpy_hit floppy.buffer (device_at 512 4294967295)
      (request 4294967295 512).user_buffer id 512 0 (by decide)
      (fun j hj h => device_at_injective 512 4294967295 j 0
        (Nat.lt_trans hj (by decide)) (by decide) h)
    have h0 : device_at 512 4294967295 0 = 4294966784 := by decide
    rw [h0] at key
    have hb : (vfloppy_write 512 floppy (request 4294967295 512)).2.1.buffer =
        memcpy floppy.buffer (device_at 512 4294967295)
          (request 4294967295 512).user_buffer id 512 := rfl
    rw [hb, key]
    rfl

/-- A successful write followed by a read of the same sectors: the read succeeds and
delivers the written bytes, the write changes no byte other than the ones the copy
addresses, and the read leaves the device as it is.  When the transfer does not wrap,
the bytes the copy addresses are the offsets from `off * SECTOR_SIZE` up to
`off * SECTOR_SIZE + length`. -/
theorem vfloppy_round_trip (SECTOR_SIZE : Nat) (extension : device_extension_t)
    (ioreq ioreq2 : io_request_t) (hlen : ioreq.length < ULONG_RANGE)
    (ho : ioreq2.offset = ioreq.offset) (hl : ioreq2.length = ioreq.length)
    (hw : (vfloppy_write SECTOR_SIZE extension ioreq).1 = iostatus_t.IO_SUCCESS) :
    (vfloppy_read SECTOR_SIZE (vfloppy_write SECTOR_SIZE extension ioreq).2.1 ioreq2).1 =
      iostatus_t.IO_SUCCESS ∧
    (∀ i, i < ioreq.length →
      (vfloppy_read SECTOR_SIZE (vfloppy_write SECTOR_SIZE extension ioreq).2.1
        ioreq2).2.2.user_buffer i = ioreq.user_buffer i) ∧
    (∀ o, (∀ i, i < ioreq.length → o ≠ device_at SECTOR_SIZE ioreq.offset i) →
      (vfloppy_write SECTOR_SIZE extension ioreq).2.1.buffer o = extension.buffer o) ∧
    (ioreq.offset * SECTOR_SIZE + ioreq.length ≤ ULONG_RANGE →
      ∀ o, (o < ioreq.offset * SECTOR_SIZE ∨ ioreq.offset * SECTOR_SIZE + ioreq.length ≤ o) →
        (vfloppy_write SECTOR_SIZE extension ioreq).2.1.buffer o = extension.buffer o) ∧
    (vfloppy_read SECTOR_SIZE (vfloppy_write SECTOR_SIZE extension ioreq).2.1 ioreq2).2.1 =
      (vfloppy_write SECTOR_SIZE extension ioreq).2.1 := by
  have hc : ¬ (ioreq.offset + ioreq.length / SECTOR_SIZE) % ULONG_RANGE ≥ extension.sectors := by
    intro hc
    rw [vfloppy_write_status] at hw
    simp [hc] at hw
  have hinj : ∀ i, i < ioreq.length → ∀ j, j < ioreq.length →
      device_at SECTOR_SIZE ioreq.offset j = device_at SECTOR_SIZE ioreq.offset i → j = i :=
    fun i hi j hj h => device_at_injective SECTOR_SIZE ioreq.offset j i (by omega) (by omega) h
  have hmiss : ∀ o, (∀ i, i < ioreq.length → o ≠ device_at SECTOR_SIZE ioreq.offset i) →
      (vfloppy_write SECTOR_SIZE extension ioreq).2.1.buffer o = extension.buffer o := by
    intro o h
    simp only [vfloppy_write, hc, if_false]
    exact memcpy_miss _ _ _ _ _ _ h
  refine ⟨?_, ?_, hmiss, ?_, ?_⟩
  · simp [vfloppy_read, vfloppy_write, hc, ho, hl]
  · intro i hi
    simp only [vfloppy_read, vfloppy_write, hc, ho, hl, if_false, io_complete_request]
    have h1 := memcpy_hit ioreq2.user_buffer id
      (memcpy extension.buffer (device_at SECTOR_SIZE ioreq.offset) ioreq.user_buffer id
        ioreq.length) (device_at SECTOR_SIZE ioreq.offset) ioreq.length i hi (fun j _ h => h)
    simp only [id_eq] at h1
    rw [h1]
    exact memcpy_hit _ _ _ id _ i hi (hinj i hi)
  · intro hr o ho2
    apply hmiss
    intro i hi
    rw [device_at_in_range SECTOR_SIZE ioreq.offset i (by omega)]
    omega
  · simp [vfloppy_read, vfloppy_write, hc, ho, hl]

/-- C20 (not met by the code): with 512-byte sectors, a write of 1024 bytes
at sector 4294967295 passes the out-of-range check; the copy starts 512 bytes before
the buffer and runs into it, so the disk byte at offset 0, which is not in the range
from `off * SECTOR_SIZE` to `off * SECTOR_SIZE + length`, changes from 0 to 1. -/
theorem vfloppy_write_wraps_into_disk :
    (vfloppy_write 512 floppy (request 4294967295 1024)).1 = iostatus_t.IO_SUCCESS ∧
    0 < floppy.buflen ∧ 0 < 4294967295 * 512 ∧
    device_at 512 4294967295 512 = 0 ∧
    floppy.buffer 0 = 0 ∧
    (vfloppy_write 512 floppy (request 4294967295 1024)).2.1.buffer 0 = 1 := by
  refine ⟨by decide, by decide, by decide, by decide, rfl, ?_⟩
  have key := memcpy_hit floppy.buffer (device_at 512 4294967295)
    (request 4294967295 1024).user_buffer id 1024 512 (by decide)
    (fun j hj h => device_at_injective 512 4294967295 j 512
      (Nat.lt_trans hj (by decide)) (by decide) h)
  have h0 : device_at 512 4294967295 512 = 0 := by decide
  rw [h0] at key
  have hb : (vfloppy_write 512 floppy (request 4294967295 1024)).2.1.buffer =
      memcpy floppy.buffer (device_at 512 4294967295)
        (request 4294967295 1024).user_buffer id 1024 := rfl
  rw [hb, key]
  rfl

theorem vfloppy_round_trip_example :
    (vfloppy_read 512 (vfloppy_write 512 floppy (request 5 700)).2.1 (request 5 700)).1 =
      iostatus_t.IO_SUCCESS ∧
    (∀ i, i < 700 →
      (vfloppy_read 512 (vfloppy_write 512 floppy (request 5 700)).2.1
        (request 5 700)).2.2.user_buffer i = (request 5 700).user_buffer i) :=
  have h := vfloppy_round_trip 512 floppy (request 5 700) (request 5 700) (by decide) rfl rfl
    (by decide)
  ⟨h.1, h.2.1⟩

end Xbook
